import Mathlib

/-!
Shallow embedding of `converter.py` from the bcehs-schedule-converter
repository, together with proofs settling the frozen claims about its
specification.

Strings are modelled as `List Char`; cell values as a sum distinguishing
text cells from non-text/blank cells (Python's `isinstance(v, str)` guard).
Regular-expression searches from the source are modelled by hand with
Python `re` semantics (leftmost match, alternation tried in order,
greedy quantifiers with backtracking).  Character classes are modelled
over ASCII, which covers the data the program consumes.
-/

deriving instance DecidableEq for Except

namespace BCEHS

/-- The characters of a string literal, used to write `List Char` constants. -/
def chars (s : String) : List Char := s.data

/-- Executable substring test (Python's `in` on strings). -/
def isSub (p s : List Char) : Bool := decide (p <:+: s)

/-- Python's whitespace class (`\s`, `str.strip`, `str.split`) over ASCII. -/
def isWs (c : Char) : Bool :=
  c = ' ' || c = '\t' || c = '\n' || c = '\r' || c = '\x0b' || c = '\x0c'

/-- ASCII lower-casing of one character (Python `str.lower`). -/
def lowerChar (c : Char) : Char :=
  if 'A' ≤ c ∧ c ≤ 'Z' then Char.ofNat (c.toNat + 32) else c

/-- ASCII upper-casing of one character (Python `str.upper`). -/
def upperChar (c : Char) : Char :=
  if 'a' ≤ c ∧ c ≤ 'z' then Char.ofNat (c.toNat - 32) else c

def lowerStr (s : List Char) : List Char := s.map lowerChar

def upperStr (s : List Char) : List Char := s.map upperChar

/-- Python `str.strip()`: drop leading and trailing whitespace. -/
def pyStrip (s : List Char) : List Char :=
  ((s.dropWhile isWs).reverse.dropWhile isWs).reverse

/-- Worker for `collapseRuns`: the flag records whether the previous
character was whitespace (i.e. we are inside a run whose single `' '`
was already emitted). -/
def collapseGo : Bool → List Char → List Char
  | _, [] => []
  | inRun, c :: t =>
    if isWs c then
      (if inRun then collapseGo true t else ' ' :: collapseGo true t)
    else c :: collapseGo false t

/-- Replace every maximal nonempty whitespace run by a single space
(the action of `re.sub(r"\s+", " ", ·)`). -/
def collapseRuns (s : List Char) : List Char := collapseGo false s

/-- `re.sub(r"\s+", " ", s.strip())`, the whitespace normalization used by
`normalize_student` and `format_preceptor_one`. -/
def squashWs (s : List Char) : List Char := collapseRuns (pyStrip s)

/-- `PARTNER_MARKERS` from converter.py. -/
def PARTNER_MARKERS : List (List Char) :=
  [chars "partner", chars "parnter", chars "partnre", chars "parter", chars "prtnr"]

/-- `STUDENT_ALIASES` from converter.py (dict as association list). -/
def STUDENT_ALIASES : List (List Char × List Char) :=
  [(chars "rory", chars "Rory-lynn Bradshaw")]

/-- `EXCLUDE_STUDENTS` from converter.py. -/
def EXCLUDE_STUDENTS : List (List Char) :=
  [chars "jadyn", chars "jadyn langley"]

/-- `is_partner_marker` from converter.py (the string-input case; the
walkers only call it on text). -/
def is_partner_marker (s : List Char) : Bool :=
  let t := lowerStr (pyStrip s)
  PARTNER_MARKERS.contains t
    || isSub (chars "partner") t || isSub (chars "parnter") t

/-- The end-anchored search/removal of `COLUMBIA_SUFFIX_PAT`
(`\s*-\s*Columbia\s*$`, case-insensitive), working on the reversed string:
skip trailing whitespace, read "Columbia" case-insensitively, skip
whitespace, require the dash; returns the reversed remaining text with the
whitespace run that the leftmost match consumes removed.  `none` means the
pattern does not occur, i.e. `COLUMBIA_SUFFIX_PAT.search` fails. -/
def revColParse (r : List Char) : Option (List Char) :=
  let r1 := r.dropWhile isWs
  if lowerStr (r1.take 8) = chars "aibmuloc" then
    match (r1.drop 8).dropWhile isWs with
    | '-' :: rest => some (rest.dropWhile isWs)
    | _ => none
  else none

/-- `normalize_student` from converter.py (string input; non-string inputs
are screened out by the callers' `isinstance` guards and yield `""`). -/
def normalize_student (raw : List Char) : List Char :=
  let s := squashWs raw
  if s = [] then []
  else
    let low := pyStrip (lowerStr s)
    if low = chars "student" ∨ low = chars "n/a" ∨ low = chars "na" then []
    else if is_partner_marker s then []
    else
      match revColParse s.reverse with
      | none => []
      | some revName =>
        let s1 := pyStrip revName.reverse
        let s2 :=
          match STUDENT_ALIASES.find? (fun p => p.1 == lowerStr s1) with
          | some p => p.2
          | none => s1
        if EXCLUDE_STUDENTS.contains (lowerStr s2) then [] else s2

/-- `[A-Za-z0-9]` (the tail class of `CODE_TOKEN_PAT`). -/
def isAlnumAscii (c : Char) : Bool := c.isAlpha || c.isDigit

/-- `CODE_TOKEN_PAT.match`: `^\d{3}[A-Za-z0-9]+$` on a whitespace-free token. -/
def isCodeToken (tok : List Char) : Bool :=
  match tok with
  | a :: b :: c :: rest =>
    a.isDigit && b.isDigit && c.isDigit && !rest.isEmpty && rest.all isAlnumAscii
  | _ => false

/-- Python `str.split()` (split on whitespace runs, no empty parts);
`cur` is the current word accumulated in reverse. -/
def splitWsGo : List Char → List Char → List (List Char)
  | cur, [] => if cur = [] then [] else [cur.reverse]
  | cur, c :: t =>
    if isWs c then
      (if cur = [] then splitWsGo [] t else cur.reverse :: splitWsGo [] t)
    else splitWsGo (c :: cur) t

def pySplit (s : List Char) : List (List Char) := splitWsGo [] s

def skipWs (s : List Char) : List Char := s.dropWhile isWs

/-- `\d{1,2}:\d{2}` at the current position (greedy hour, with the regex
backtracking from two hour digits to one). Returns (matched text, rest). -/
def matchHM : List Char → Option (List Char × List Char)
  | a :: b :: c :: d :: e :: rest =>
    if a.isDigit ∧ b.isDigit ∧ c = ':' ∧ d.isDigit ∧ e.isDigit then
      some ([a, b, c, d, e], rest)
    else if a.isDigit ∧ b = ':' ∧ c.isDigit ∧ d.isDigit then
      some ([a, b, c, d], e :: rest)
    else none
  | [a, b, c, d] =>
    if a.isDigit ∧ b = ':' ∧ c.isDigit ∧ d.isDigit then some ([a, b, c, d], [])
    else none
  | _ => none

/-- `\s*[-–]` at the current position. -/
def matchSep (s : List Char) : Option (List Char) :=
  match skipWs s with
  | c :: rest => if c = '-' ∨ c = '–' then some rest else none
  | [] => none

def take4Digits : List Char → Option (List Char × List Char)
  | a :: b :: c :: d :: rest =>
    if a.isDigit ∧ b.isDigit ∧ c.isDigit ∧ d.isDigit then some ([a, b, c, d], rest)
    else none
  | _ => none

def take3Digits : List Char → Option (List Char × List Char)
  | a :: b :: c :: rest =>
    if a.isDigit ∧ b.isDigit ∧ c.isDigit then some ([a, b, c], rest)
    else none
  | _ => none

/-- First alternative of `TIME_RANGE_PAT`:
`(\d{1,2}:\d{2})\s*[-–]\s*(\d{1,2}:\d{2})` at the current position. -/
def matchColonRange (s : List Char) : Option (List Char × List Char) :=
  match matchHM s with
  | none => none
  | some (g1, r1) =>
    match matchSep r1 with
    | none => none
    | some r2 =>
      match matchHM (skipWs r2) with
      | none => none
      | some (g2, _) => some (g1, g2)

/-- After a candidate first group, `\s*[-–]\s*(\d{3,4})` (second group greedy). -/
def matchDigitTail (g1 : List Char) (r1 : List Char) : Option (List Char × List Char) :=
  match matchSep r1 with
  | none => none
  | some r2 =>
    match take4Digits (skipWs r2) with
    | some (g2, _) => some (g1, g2)
    | none =>
      match take3Digits (skipWs r2) with
      | some (g2, _) => some (g1, g2)
      | none => none

/-- Second alternative of `TIME_RANGE_PAT`:
`(\d{3,4})\s*[-–]\s*(\d{3,4})` at the current position, the first group
greedy (4 digits, backtracking to 3). -/
def matchDigitRange (s : List Char) : Option (List Char × List Char) :=
  match take4Digits s with
  | some (g1, r1) =>
    match matchDigitTail g1 r1 with
    | some res => some res
    | none =>
      match take3Digits s with
      | some (g1', r1') => matchDigitTail g1' r1'
      | none => none
  | none =>
    match take3Digits s with
    | some (g1, r1) => matchDigitTail g1 r1
    | none => none

/-- `TIME_RANGE_PAT.search`: leftmost match, colon alternative tried first
at each position.  The Bool is true for the colon form. -/
def findTR : List Char → Option (Bool × List Char × List Char)
  | [] => none
  | c :: t =>
    match matchColonRange (c :: t) with
    | some (a, b) => some (true, a, b)
    | none =>
      match matchDigitRange (c :: t) with
      | some (a, b) => some (false, a, b)
      | none => findTR t

/-- `int()` on a string of decimal digits. -/
def digitsToNat (l : List Char) : Nat := l.foldl (fun n c => 10 * n + (c.toNat - 48)) 0

/-- `f"{n:02d}"`. -/
def pad2 (n : Nat) : List Char :=
  if n < 10 then '0' :: Nat.toDigits 10 n else Nat.toDigits 10 n

/-- `norm_hhmm` from converter.py. -/
def norm_hhmm (x : List Char) : List Char :=
  if x.length = 3 then
    pad2 (digitsToNat (x.take 1)) ++ ':' :: pad2 (digitsToNat (x.drop 1))
  else
    pad2 (digitsToNat (x.take (x.length - 2))) ++ ':' :: pad2 (digitsToNat (x.drop (x.length - 2)))

/-- The structured result of `parse_shift` (the Python dict; `stop` models
the `"end"` key, `end` being a Lean keyword). -/
structure Shift where
  raw : List Char
  code : List Char
  start : List Char
  stop : List Char
  station : List Char
  ambulance : List Char
deriving DecidableEq, Repr

/-- `text.replace("\n", " ")`. -/
def pyReplaceNL (s : List Char) : List Char := s.map (fun c => if c = '\n' then ' ' else c)

/-- `parse_shift` from converter.py (string-input case; the walkers guard
non-strings away, and Python's falsiness test on a string is emptiness). -/
def parse_shift (text : List Char) : Option Shift :=
  if text = [] then none
  else
    let t := pyStrip (pyReplaceNL text)
    let code := match (pySplit t).find? isCodeToken with
      | some tok => tok
      | none => []
    let se : List Char × List Char := match findTR t with
      | some (isColon, g1, g2) =>
        if isColon then (g1, g2) else (norm_hhmm g1, norm_hhmm g2)
      | none => ([], [])
    let station := if code = [] then [] else code.take 3
    let ambulance :=
      if code = [] then []
      else
        match code with
        | a :: b :: c :: d :: e :: _ =>
          if a.isDigit ∧ b.isDigit ∧ c.isDigit ∧ d.isAlpha ∧ e.isDigit then
            [a, b, c, d, e]
          else []
        | _ => []
    if code = [] ∧ se.1 = [] ∧ se.2 = [] then none
    else some { raw := t, code := code, start := se.1, stop := se.2,
                station := station, ambulance := ambulance }

/-- `format_preceptor_one` from converter.py. -/
def format_preceptor_one (name : List Char) : List Char :=
  let s := squashWs name
  if s.contains ',' then
    let last := s.takeWhile (fun c => c != ',')
    let rest := (s.dropWhile (fun c => c != ',')).drop 1
    collapseRuns (pyStrip (pyStrip rest ++ ' ' :: pyStrip last))
  else s

/-- `" / ".join`. -/
def joinSep (sep : List Char) : List (List Char) → List Char
  | [] => []
  | [x] => x
  | x :: xs => x ++ sep ++ joinSep sep xs

/-- `format_preceptor` from converter.py (string-input case). -/
def format_preceptor (name : List Char) : List Char :=
  let parts := ((name.splitOn '/').map pyStrip).filter (fun p => p ≠ [])
  joinSep (chars " / ") (parts.map format_preceptor_one)

/-- `is_group_header` from converter.py (string-input case). -/
def is_group_header (text : List Char) : Bool :=
  let s := pyStrip text
  if (chars "STUDENT").isPrefixOf (upperStr s) then false
  else if s.contains ',' then false
  else if upperStr s = s ∧ 3 ≤ s.length then true
  else if isSub (chars "Metro") s ∨ isSub (chars "Vancouver") s
      ∨ isSub (chars "Fraser") s ∨ isSub (chars "Interior") s
      ∨ isSub (chars "Island") s ∨ isSub (chars "&") s
      ∨ isSub (chars "SEA TO SKY") s ∨ isSub (chars "COASTAL") s then
    decide (2 ≤ (pySplit s).length)
  else false

/-- `\w` for the `\b` boundaries of `HEADER_DATE_PAT` (ASCII). -/
def isWordChar (c : Char) : Bool := c.isAlpha || c.isDigit || c = '_'

/-- Numeric value of a decimal digit character. -/
def dval (c : Char) : Nat := c.toNat - 48

/-- The trailing `\b` of `HEADER_DATE_PAT`: next char absent or non-word. -/
def endBoundary : List Char → Bool
  | [] => true
  | c :: _ => !(isWordChar c)

/-- `([A-Za-z]{3})/(\d{1,2})\b` at the current position (the leading `\b`
is checked by the caller).  The day group is greedy, backtracking from two
digits to one; the trailing boundary kills both options when a word
character follows. -/
def matchMD : List Char → Option (List Char × Nat)
  | c1 :: c2 :: c3 :: '/' :: d1 :: rest =>
    if c1.isAlpha ∧ c2.isAlpha ∧ c3.isAlpha ∧ d1.isDigit then
      match rest with
      | d2 :: rest2 =>
        if d2.isDigit then
          (if endBoundary rest2 then some ([c1, c2, c3], 10 * dval d1 + dval d2)
           else none)
        else if ¬ (isWordChar d2 = true) then some ([c1, c2, c3], dval d1)
        else none
      | [] => some ([c1, c2, c3], dval d1)
    else none
  | _ => none

/-- `HEADER_DATE_PAT.search`: leftmost position with a word boundary before
a month/day match.  `prevWord` says whether the previous character is a
word character (false at the string start). -/
def searchMD : Bool → List Char → Option (List Char × Nat)
  | _, [] => none
  | prevWord, c :: t =>
    if prevWord then searchMD (isWordChar c) t
    else
      match matchMD (c :: t) with
      | some res => some res
      | none => searchMD (isWordChar c) t

/-- A calendar date as produced by `datetime.date`. -/
structure Date where
  year : Nat
  month : Nat
  day : Nat
deriving DecidableEq, Repr

def isLeap (y : Nat) : Bool := y % 4 = 0 && (y % 100 != 0 || y % 400 = 0)

def daysInMonth (y m : Nat) : Nat :=
  if m = 2 then (if isLeap y then 29 else 28)
  else if m = 4 ∨ m = 6 ∨ m = 9 ∨ m = 11 then 30
  else 31

/-- `datetime.date(y, m, d)`: `some` exactly when the constructor does not
raise `ValueError`. -/
def mkDate (y m d : Nat) : Option Date :=
  if 1 ≤ y ∧ y ≤ 9999 ∧ 1 ≤ m ∧ m ≤ 12 ∧ 1 ≤ d ∧ d ≤ daysInMonth y m then
    some ⟨y, m, d⟩
  else none

/-- The date is one `datetime.date` accepts. -/
def dateValid (dt : Date) : Prop := mkDate dt.year dt.month dt.day = some dt

instance (dt : Date) : Decidable (dateValid dt) := by
  unfold dateValid; infer_instance

/-- `MONTHS` from converter.py. -/
def MONTHS : List (List Char × Nat) :=
  [(chars "jan", 1), (chars "feb", 2), (chars "mar", 3), (chars "apr", 4),
   (chars "may", 5), (chars "jun", 6), (chars "jul", 7), (chars "aug", 8),
   (chars "sep", 9), (chars "oct", 10), (chars "nov", 11), (chars "dec", 12)]

def padNum (w n : Nat) : List Char :=
  let ds := Nat.toDigits 10 n
  List.replicate (w - ds.length) '0' ++ ds

/-- `date.isoformat()` (for the years in range, 4-2-2 zero-padded). -/
def isoformat (d : Date) : List Char :=
  padNum 4 d.year ++ '-' :: (padNum 2 d.month ++ '-' :: padNum 2 d.day)

/-- An openpyxl cell value: a string, or anything failing
`isinstance(v, str)` (numbers, `None` for blank cells, ...). -/
inductive CellVal where
  | str (s : List Char)
  | nonstr
deriving DecidableEq, Repr

/-- An openpyxl worksheet: title plus the (1-indexed) cell grid with its
used-range bounds. -/
structure Ws where
  title : List Char
  cells : Nat → Nat → CellVal
  max_row : Nat
  max_column : Nat

/-- Loop body of `parse_header_dates` over the remaining columns, with the
accumulated column/date pairs in insertion (ascending column) order.
`Except.error` models the uncaught `ValueError` that `dt.date` raises on an
out-of-range day. -/
def headerGo (ws : Ws) (year : Nat) : List Nat → List (Nat × Date) →
    Except Unit (List (Nat × Date))
  | [], acc => .ok acc
  | c :: cs, acc =>
    match ws.cells 1 c with
    | .str v =>
      match searchMD false v with
      | some (ab, day) =>
        match MONTHS.find? (fun p => p.1 == lowerStr ab) with
        | some p =>
          match mkDate year p.2 day with
          | some d => headerGo ws year cs (acc ++ [(c, d)])
          | none => .error ()
        | none => headerGo ws year cs acc
      | none => headerGo ws year cs acc
    | .nonstr => headerGo ws year cs acc

/-- `parse_header_dates` from converter.py (`range(start_col, max_column+1)`). -/
def parse_header_dates (ws : Ws) (year : Nat) (start_col : Nat) :
    Except Unit (List (Nat × Date)) :=
  headerGo ws year (List.range' start_col (ws.max_column + 1 - start_col)) []

/-- One exported row (the dict the walkers append; `stop` models the
`"End Time (HH:MM)"` key). -/
structure Row where
  studentName : List Char
  date : List Char
  start : List Char
  stop : List Char
  location : List Char
  station : List Char
  ambulance : List Char
  preceptor : List Char
  sheet : List Char
  code : List Char
  rawShift : List Char
deriving DecidableEq, Repr

/-- `range(2, ws.max_row + 1)`. -/
def rowRange (ws : Ws) : List Nat := List.range' 2 (ws.max_row - 1)

/-- The walkers' adjacent-row test `v.strip().upper() == "STUDENT"`. -/
def isStudentLabel (v : CellVal) : Bool :=
  match v with
  | .str u => upperStr (pyStrip u) == chars "STUDENT"
  | .nonstr => false

/-- The PCP walker's adjacent STUDENT-row lookup (above first, then below). -/
def pcp_student_row (ws : Ws) (r : Nat) : Option Nat :=
  if isStudentLabel (ws.cells (r - 1) 1) then some (r - 1)
  else if isStudentLabel (ws.cells (r + 1) 1) then some (r + 1)
  else none

/-- The PCP walker's same-column student lookup in the adjacent STUDENT row
(converter.py lines 253-257; `""` when there is no adjacent row or the cell
is not text). -/
def pcpStudentRaw (ws : Ws) (studentRow : Option Nat) (c : Nat) : List Char :=
  match studentRow with
  | some sr =>
    match ws.cells sr c with
    | .str sv => pyStrip sv
    | .nonstr => []
  | none => []

/-- The PCP walker's location rule (converter.py lines 263-265). -/
def pcpLocation (sheetName : List Char) (group : Option (List Char)) : List Char :=
  match group with
  | some g => if g ≠ sheetName then sheetName ++ chars " - " ++ g else g
  | none => sheetName

/-- The PCP walker's per-dated-column body (converter.py lines 241-281). -/
def pcpCellRows (ws : Ws) (sheetName : List Char) (group : Option (List Char))
    (preceptor : List Char) (studentRow : Option Nat) (r : Nat) (cd : Nat × Date) :
    List Row :=
  match ws.cells r cd.1 with
  | .str cv =>
    let txt := pyStrip cv
    if txt = [] ∨ txt = chars "\\" then []
    else
      match parse_shift txt with
      | none => []
      | some sh =>
        let student := normalize_student (pcpStudentRaw ws studentRow cd.1)
        if student = [] then []
        else
          let location := pcpLocation sheetName group
          [{ studentName := student, date := isoformat cd.2, start := sh.start,
             stop := sh.stop, location := location, station := sh.station,
             ambulance := sh.ambulance, preceptor := preceptor, sheet := sheetName,
             code := sh.code, rawShift := sh.raw }]
  | .nonstr => []

/-- The PCP walker's per-row body: returns the updated current-group state
and the rows emitted for this row. -/
def pcpRowStep (ws : Ws) (sheetName : List Char) (colDates : List (Nat × Date))
    (group : Option (List Char)) (r : Nat) : Option (List Char) × List Row :=
  match ws.cells r 1 with
  | .str a =>
    let a_str := pyStrip a
    if a_str = [] ∨ a_str = chars "Preceptor" then (group, [])
    else if upperStr a_str = chars "STUDENT" then (group, [])
    else if is_group_header a_str then (some a_str, [])
    else
      (group,
        colDates.flatMap
          (pcpCellRows ws sheetName group (format_preceptor_one a_str)
            (pcp_student_row ws r) r))
  | .nonstr => (group, [])

/-- The row loop shared by both walkers: fold the per-row body over the
rows, threading the walker state and appending the emitted rows. -/
def walkRows {σ : Type} (step : σ → Nat → σ × List Row) (rows : List Nat)
    (st : σ) (acc : List Row) : List Row :=
  match rows with
  | [] => acc
  | r :: rest =>
    let p := step st r
    walkRows step rest p.1 (acc ++ p.2)

/-- One sheet of `extract_pcp_rows` (sheets with no parsed header dates are
skipped). -/
def pcpSheetRows (year : Nat) (ws : Ws) : Except Unit (List Row) :=
  match parse_header_dates ws year 2 with
  | .error e => .error e
  | .ok colDates =>
    if colDates = [] then .ok []
    else .ok (walkRows (pcpRowStep ws ws.title colDates) (rowRange ws) none [])

/-- Sheet loop of `extract_pcp_rows`, accumulating `all_rows`. -/
def pcpSheetsGo (year : Nat) : List Ws → List Row → Except Unit (List Row)
  | [], acc => .ok acc
  | ws :: rest, acc =>
    match pcpSheetRows year ws with
    | .error e => .error e
    | .ok rs => pcpSheetsGo year rest (acc ++ rs)

/-- `extract_pcp_rows` from converter.py; the workbook is its sheet list in
order (openpyxl's `wb.sheetnames` / `wb[name]`). -/
def extract_pcp_rows (wb : List Ws) (year : Nat) : Except Unit (List Row) :=
  pcpSheetsGo year wb []

/-- `is_student_marker` from converter.py. -/
def is_student_marker (v : CellVal) : Bool :=
  match v with
  | .str s => (chars "STUDENT").isPrefixOf (upperStr (pyStrip s))
  | .nonstr => false

/-- The ACP walker's per-cell student gathering (converter.py lines 342-348). -/
def acpCollect (ws : Ws) (studentRows : List Nat) (c : Nat) : List (List Char) :=
  studentRows.filterMap (fun sr =>
    match ws.cells sr c with
    | .str sv =>
      if pyStrip sv ≠ [] then
        (if normalize_student sv ≠ [] then some (normalize_student sv) else none)
      else none
    | .nonstr => none)

/-- The ACP walker's per-cell de-duplication (`seen` keeps the lowercase
keys already emitted, converter.py lines 350-357). -/
def dedupGo (seen : List (List Char)) : List (List Char) → List (List Char)
  | [] => []
  | s :: rest =>
    if seen.contains (lowerStr s) then dedupGo seen rest
    else s :: dedupGo (lowerStr s :: seen) rest

def dedupCI (l : List (List Char)) : List (List Char) := dedupGo [] l

/-- The ACP walker's location rule (converter.py line 362). -/
def acpLocation (group : Option (List Char)) : List Char :=
  match group with
  | some g => g
  | none => chars "ACP"

/-- The ACP walker's per-dated-column body (converter.py lines 329-379). -/
def acpCellRows (ws : Ws) (group : Option (List Char)) (preceptor : List Char)
    (studentRows : List Nat) (r : Nat) (cd : Nat × Date) : List Row :=
  match ws.cells r cd.1 with
  | .str cv =>
    let txt := pyStrip cv
    if txt = [] ∨ txt = chars "\\" then []
    else
      match parse_shift txt with
      | none => []
      | some sh =>
        let students := dedupCI (acpCollect ws studentRows cd.1)
        if students = [] then []
        else
          let location := acpLocation group
          students.map (fun student =>
            { studentName := student, date := isoformat cd.2, start := sh.start,
              stop := sh.stop, location := location, station := sh.station,
              ambulance := sh.ambulance, preceptor := preceptor, sheet := ws.title,
              code := sh.code, rawShift := sh.raw })
  | .nonstr => []

/-- The ACP walker's per-row body over the state (current group, pending
student-marker rows); returns the new state and the emitted rows. -/
def acpRowStep (ws : Ws) (colDates : List (Nat × Date))
    (st : Option (List Char) × List Nat) (r : Nat) :
    (Option (List Char) × List Nat) × List Row :=
  match ws.cells r 1 with
  | .str a =>
    let a_str := pyStrip a
    if a_str = [] then (st, [])
    else if is_group_header a_str then ((some a_str, []), [])
    else if a_str = chars "Preceptor" then (st, [])
    else if is_student_marker (.str a_str) then ((st.1, st.2 ++ [r]), [])
    else
      ((st.1, []),
        colDates.flatMap (acpCellRows ws st.1 (format_preceptor a_str) st.2 r))
  | .nonstr => (st, [])

/-- `extract_acp_rows` from converter.py: only the first sheet is read
(`wb[wb.sheetnames[0]]`; an empty workbook, impossible under openpyxl,
maps to the error case). -/
def extract_acp_rows (wb : List Ws) (year : Nat) : Except Unit (List Row) :=
  match wb with
  | [] => .error ()
  | ws :: _ =>
    match parse_header_dates ws year 3 with
    | .error e => .error e
    | .ok colDates =>
      .ok (walkRows (acpRowStep ws colDates) (rowRange ws) (none, []) [])

/-- `extract_rows_from_workbook` from converter.py, after the workbook
bytes are loaded; `mode` is `none` for Python `None`. -/
def extract_rows_from_workbook (wb : List Ws) (year : Nat)
    (mode : Option (List Char)) : Except Unit (List Row) :=
  let m := upperStr (pyStrip (match mode with | some s => s | none => []))
  if m = chars "ACP" then extract_acp_rows wb year else extract_pcp_rows wb year

/-! ### Spec-side predicates (statement vocabulary, not part of the embedding) -/

/-- Every character is whitespace. -/
def allWs (l : List Char) : Prop := ∀ c ∈ l, isWs c = true

/-- The spec's "carries a trailing `- Columbia` suffix (case-insensitive,
arbitrary surrounding whitespace)": the raw input decomposes as
`name ++ '-' ++ ws ++ Columbia ++ ws` with the eight letters consecutive. -/
def HasColumbiaSuffix (s : List Char) : Prop :=
  ∃ a w1 cw w2 : List Char,
    s = a ++ '-' :: (w1 ++ cw ++ w2) ∧
    allWs w1 ∧ allWs w2 ∧ lowerStr cw = chars "columbia"

/-- The spec's colon form "H:MM-H:MM" side: one or two hour digits, a
colon, two minute digits. -/
def isColonTimeB : List Char → Bool
  | [h1, c, m1, m2] => h1.isDigit && (c == ':') && m1.isDigit && m2.isDigit
  | [h1, h2, c, m1, m2] =>
    h1.isDigit && h2.isDigit && (c == ':') && m1.isDigit && m2.isDigit
  | _ => false

/-- The spec's military form side: three or four decimal digits. -/
def isMilTimeB (x : List Char) : Bool :=
  (x.length = 3 || x.length = 4) && x.all Char.isDigit

/-- The two separators `[-–]` of `TIME_RANGE_PAT`. -/
def isRangeSep (c : Char) : Prop := c = '-' ∨ c = '–'

/-! ### Concrete workbook fixtures used by the claim theorems -/

/-- PCP fixture: a dated column, a STUDENT row directly above a preceptor
row. -/
def pcpWsAbove : Ws :=
  { title := chars "REGION1",
    max_row := 3, max_column := 2,
    cells := fun r c =>
      match r, c with
      | 1, 2 => .str (chars "Mon Jan/6")
      | 2, 1 => .str (chars "STUDENT")
      | 3, 1 => .str (chars "Smith, John")
      | 2, 2 => .str (chars "Jane Doe - Columbia")
      | 3, 2 => .str (chars "240B1DA070 0700-1900")
      | _, _ => .nonstr }

/-- PCP fixture: as `pcpWsAbove` but the STUDENT row is directly below the
preceptor row. -/
def pcpWsBelow : Ws :=
  { title := chars "REGION1",
    max_row := 3, max_column := 2,
    cells := fun r c =>
      match r, c with
      | 1, 2 => .str (chars "Mon Jan/6")
      | 2, 1 => .str (chars "Smith, John")
      | 3, 1 => .str (chars "STUDENT")
      | 3, 2 => .str (chars "Jane Doe - Columbia")
      | 2, 2 => .str (chars "240B1DA070 0700-1900")
      | _, _ => .nonstr }

/-- PCP fixture: an active group header that differs from the sheet title. -/
def pcpWsGroup : Ws :=
  { title := chars "REGION1",
    max_row := 4, max_column := 2,
    cells := fun r c =>
      match r, c with
      | 1, 2 => .str (chars "Mon Jan/6")
      | 2, 1 => .str (chars "FRASER VALLEY")
      | 3, 1 => .str (chars "STUDENT")
      | 4, 1 => .str (chars "Smith, John")
      | 3, 2 => .str (chars "Jane Doe - Columbia")
      | 4, 2 => .str (chars "240B1DA070 0700-1900")
      | _, _ => .nonstr }

/-- PCP fixture: the shift cell has a code but no parseable time range. -/
def pcpWsCodeOnly : Ws :=
  { title := chars "REGION1",
    max_row := 3, max_column := 2,
    cells := fun r c =>
      match r, c with
      | 1, 2 => .str (chars "Mon Jan/6")
      | 2, 1 => .str (chars "STUDENT")
      | 3, 1 => .str (chars "Smith, John")
      | 2, 2 => .str (chars "Jane Doe - Columbia")
      | 3, 2 => .str (chars "240B1DA070")
      | _, _ => .nonstr }

/-- Sheet whose row-1 header contains the malformed date text `Feb/30`. -/
def wsFeb30 : Ws :=
  { title := chars "R", max_row := 2, max_column := 3,
    cells := fun r c =>
      match r, c with
      | 1, 3 => .str (chars "Feb/30")
      | _, _ => .nonstr }

/-- ACP fixture: two buffered student-marker rows holding the same name up
to case over one dated shift column, under an active group header. -/
def acpWsDup : Ws :=
  { title := chars "Sheet1", max_row := 5, max_column := 3,
    cells := fun r c =>
      match r, c with
      | 1, 3 => .str (chars "Tue Feb/4")
      | 2, 1 => .str (chars "FRASER VALLEY")
      | 3, 1 => .str (chars "STUDENT 1")
      | 3, 3 => .str (chars "JANE DOE - Columbia")
      | 4, 1 => .str (chars "STUDENT 2")
      | 4, 3 => .str (chars "jane doe - Columbia")
      | 5, 1 => .str (chars "Wilson, Travis / Johnston, Heather")
      | 5, 3 => .str (chars "240B1DA070 0700-1900")
      | _, _ => .nonstr }

/-- ACP fixture: one student on two dated columns (no cross-date
de-duplication), no group header (location falls back to "ACP"). -/
def acpWsTwoDates : Ws :=
  { title := chars "Sheet1", max_row := 3, max_column := 4,
    cells := fun r c =>
      match r, c with
      | 1, 3 => .str (chars "Tue Feb/4")
      | 1, 4 => .str (chars "Wed Feb/5")
      | 2, 1 => .str (chars "STUDENT 1")
      | 2, 3 => .str (chars "Jane Doe - Columbia")
      | 2, 4 => .str (chars "Jane Doe - Columbia")
      | 3, 1 => .str (chars "Wilson, Travis")
      | 3, 3 => .str (chars "700-1530")
      | 3, 4 => .str (chars "700-1530")
      | _, _ => .nonstr }

/-- The single record `extract_pcp_rows [pcpWsAbove] 2025` produces. -/
def pcpAboveRow : Row :=
  { studentName := chars "Jane Doe", date := chars "2025-01-06",
    start := chars "07:00", stop := chars "19:00", location := chars "REGION1",
    station := chars "240", ambulance := chars "240B1",
    preceptor := chars "John Smith", sheet := chars "REGION1",
    code := chars "240B1DA070", rawShift := chars "240B1DA070 0700-1900" }

/-- The single record `extract_pcp_rows [pcpWsGroup] 2025` produces. -/
def pcpGroupRow : Row :=
  { studentName := chars "Jane Doe", date := chars "2025-01-06",
    start := chars "07:00", stop := chars "19:00",
    location := chars "REGION1 - FRASER VALLEY",
    station := chars "240", ambulance := chars "240B1",
    preceptor := chars "John Smith", sheet := chars "REGION1",
    code := chars "240B1DA070", rawShift := chars "240B1DA070 0700-1900" }

/-! ## Infrastructure lemmas -/

theorem walkRows_mem {σ : Type} (step : σ → Nat → σ × List Row) :
    ∀ (rows : List Nat) (st : σ) (acc : List Row) (x : Row),
      x ∈ walkRows step rows st acc →
      x ∈ acc ∨ ∃ r, r ∈ rows ∧ ∃ s, x ∈ (step s r).2 := by
  intro rows
  induction rows with
  | nil => intro st acc x hx; exact Or.inl hx
  | cons a t ih =>
    intro st acc x hx
    rw [walkRows] at hx
    rcases ih _ _ x hx with h1 | ⟨r, hr, s, hs⟩
    · rcases List.mem_append.mp h1 with h2 | h2
      · exact Or.inl h2
      · exact Or.inr ⟨a, List.mem_cons_self _ _, st, h2⟩
    · exact Or.inr ⟨r, List.mem_cons_of_mem _ hr, s, hs⟩

theorem pcpSheetsGo_mem (year : Nat) :
    ∀ (l : List Ws) (acc res : List Row),
      pcpSheetsGo year l acc = .ok res →
      ∀ x ∈ res,
        x ∈ acc ∨ ∃ ws, ws ∈ l ∧ ∃ rs, pcpSheetRows year ws = .ok rs ∧ x ∈ rs := by
  intro l
  induction l with
  | nil =>
    intro acc res heq x hx
    rw [pcpSheetsGo] at heq
    cases heq
    exact Or.inl hx
  | cons w t ih =>
    intro acc res heq x hx
    rw [pcpSheetsGo] at heq
    cases hw : pcpSheetRows year w with
    | error e => rw [hw] at heq; cases heq
    | ok rs =>
      rw [hw] at heq
      rcases ih _ _ heq x hx with h1 | ⟨ws, hws, rs2, hok, hx2⟩
      · rcases List.mem_append.mp h1 with h2 | h2
        · exact Or.inl h2
        · exact Or.inr ⟨w, List.mem_cons_self _ _, rs, hw, h2⟩
      · exact Or.inr ⟨ws, List.mem_cons_of_mem _ hws, rs2, hok, hx2⟩

theorem mkDate_valid {y m d : Nat} {dt : Date} (h : mkDate y m d = some dt) :
    dateValid dt := by
  have hh := h
  unfold mkDate at hh
  split at hh
  · cases hh
    exact h
  · cases hh

theorem headerGo_valid (ws : Ws) (year : Nat) :
    ∀ (cols : List Nat) (acc res : List (Nat × Date)),
      headerGo ws year cols acc = .ok res →
      (∀ cd ∈ acc, dateValid cd.2) →
      ∀ cd ∈ res, dateValid cd.2 := by
  intro cols
  induction cols with
  | nil =>
    intro acc res heq hacc
    rw [headerGo] at heq
    cases heq
    exact hacc
  | cons c cs ih =>
    intro acc res heq hacc
    rw [headerGo] at heq
    cases hv : ws.cells 1 c with
    | nonstr =>
      simp only [hv] at heq
      exact ih _ _ heq hacc
    | str v =>
      simp only [hv] at heq
      cases hs : searchMD false v with
      | none =>
        simp only [hs] at heq
        exact ih _ _ heq hacc
      | some md =>
        obtain ⟨ab, day⟩ := md
        simp only [hs] at heq
        cases hf : MONTHS.find? (fun p => p.1 == lowerStr ab) with
        | none =>
          simp only [hf] at heq
          exact ih _ _ heq hacc
        | some p =>
          simp only [hf] at heq
          cases hd : mkDate year p.2 day with
          | none => simp only [hd] at heq; simp at heq
          | some d =>
            simp only [hd] at heq
            refine ih _ _ heq ?_
            intro cd hcd
            rcases List.mem_append.mp hcd with hm | hm
            · exact hacc cd hm
            · have : cd = (c, d) := List.mem_singleton.mp hm
              subst this
              exact mkDate_valid hd

theorem parse_header_dates_valid {ws : Ws} {year sc : Nat} {cds : List (Nat × Date)}
    (h : parse_header_dates ws year sc = .ok cds) :
    ∀ cd ∈ cds, dateValid cd.2 :=
  headerGo_valid ws year _ [] cds h (by intro cd h0; cases h0)

/-- C10: in ACP mode the result depends only on the workbook's first sheet;
two workbooks with the same first sheet (title, cells and bounds) give the
same record table, whatever the remaining sheets are. -/
theorem c10_acp_first_sheet_only (ws : Ws) (rest rest' : List Ws) (year : Nat) :
    extract_acp_rows (ws :: rest) year = extract_acp_rows (ws :: rest') year := rfl

/-- C8: `extract_rows_from_workbook` dispatches case-insensitively on the
trimmed mode: any mode trimming and upcasing to "ACP" selects the ACP
walker, every other string selects the PCP walker, and so does an absent
(`None`) mode. -/
theorem c8_mode_dispatch (wb : List Ws) (year : Nat) :
    (∀ s : List Char, upperStr (pyStrip s) = chars "ACP" →
        extract_rows_from_workbook wb year (some s) = extract_acp_rows wb year) ∧
    (∀ s : List Char, upperStr (pyStrip s) ≠ chars "ACP" →
        extract_rows_from_workbook wb year (some s) = extract_pcp_rows wb year) ∧
    extract_rows_from_workbook wb year none = extract_pcp_rows wb year := by
  refine ⟨fun s hs => ?_, fun s hs => ?_, ?_⟩
  · unfold extract_rows_from_workbook
    rw [if_pos hs]
  · unfold extract_rows_from_workbook
    rw [if_neg hs]
  · unfold extract_rows_from_workbook
    rw [if_neg (by decide)]

theorem c8_mode_dispatch_witness :
    extract_rows_from_workbook [] 2025 (some (chars " acp ")) = extract_acp_rows [] 2025 ∧
    extract_rows_from_workbook [] 2025 (some (chars "pcp")) = extract_pcp_rows [] 2025 :=
  ⟨(c8_mode_dispatch [] 2025).1 (chars " acp ") (by decide),
   (c8_mode_dispatch [] 2025).2.1 (chars "pcp") (by decide)⟩

/-- C4: a malformed (but pattern-matching) header date such as `Feb/30`
makes `parse_header_dates` raise `ValueError` out of `dt.date`, so the
extraction run aborts instead of skipping the cell: the claim that only
structural failures propagate is contradicted by the code. -/
theorem c4_malformed_header_aborts :
    extract_pcp_rows [wsFeb30] 2025 = Except.error () ∧
    extract_acp_rows [wsFeb30] 2025 = Except.error () := by
  constructor <;> decide

theorem dedupGo_subset : ∀ (seen l : List (List Char)) (x : List Char),
    x ∈ dedupGo seen l → x ∈ l := by
  intro seen l
  induction l generalizing seen with
  | nil => intro x hx; cases hx
  | cons a t ih =>
    intro x hx
    rw [dedupGo] at hx
    split at hx
    · exact List.mem_cons_of_mem _ (ih _ _ hx)
    · rcases List.mem_cons.mp hx with rfl | hx2
      · exact List.mem_cons_self _ _
      · exact List.mem_cons_of_mem _ (ih _ _ hx2)

theorem acpCollect_ne_nil {ws : Ws} {srs : List Nat} {c : Nat} {x : List Char}
    (h : x ∈ acpCollect ws srs c) : x ≠ [] := by
  rcases List.mem_filterMap.mp h with ⟨sr, hsr, hf⟩
  split at hf
  next sv hc =>
    split at hf
    · split at hf
      next hne =>
        cases hf
        exact hne
      next => cases hf
    · exact absurd hf (by simp)
  next => exact absurd hf (by simp)

theorem pcpCellRows_sound {ws : Ws} {sn : List Char} {g : Option (List Char)}
    {p : List Char} {srow : Option Nat} {r : Nat} {cd : Nat × Date} {row : Row}
    (h : row ∈ pcpCellRows ws sn g p srow r cd) :
    row.studentName = normalize_student (pcpStudentRaw ws srow cd.1) ∧
    row.studentName ≠ [] ∧
    row.date = isoformat cd.2 ∧
    row.location = pcpLocation sn g ∧
    row.preceptor = p := by
  simp only [pcpCellRows] at h
  split at h
  next cv hc =>
    split at h
    · cases h
    · split at h
      · cases h
      next sh hp =>
        split at h
        · cases h
        next hne =>
          have hr := List.mem_singleton.mp h
          subst hr
          exact ⟨rfl, hne, rfl, rfl, rfl⟩
  next => cases h

theorem acpCellRows_sound {ws : Ws} {g : Option (List Char)} {p : List Char}
    {srs : List Nat} {r : Nat} {cd : Nat × Date} {row : Row}
    (h : row ∈ acpCellRows ws g p srs r cd) :
    row.studentName ∈ dedupCI (acpCollect ws srs cd.1) ∧
    row.date = isoformat cd.2 ∧
    row.location = acpLocation g ∧
    row.preceptor = p := by
  simp only [acpCellRows] at h
  split at h
  next cv hc =>
    split at h
    · cases h
    · split at h
      · cases h
      next sh hp =>
        split at h
        · cases h
        next hne =>
          rcases List.mem_map.mp h with ⟨student, hs, hr⟩
          subst hr
          exact ⟨hs, rfl, rfl, rfl⟩
  next => cases h

theorem pcpRowStep_mem {ws : Ws} {sn : List Char} {cds : List (Nat × Date)}
    {g : Option (List Char)} {r : Nat} {row : Row}
    (h : row ∈ (pcpRowStep ws sn cds g r).2) :
    ∃ a, ws.cells r 1 = .str a ∧
      ∃ cd, cd ∈ cds ∧
        row ∈ pcpCellRows ws sn g (format_preceptor_one (pyStrip a))
          (pcp_student_row ws r) r cd := by
  simp only [pcpRowStep] at h
  split at h
  next a hc =>
    split at h
    · cases h
    · split at h
      · cases h
      · split at h
        · cases h
        · have h' : row ∈ cds.flatMap
              (pcpCellRows ws sn g (format_preceptor_one (pyStrip a))
                (pcp_student_row ws r) r) := h
          rcases List.mem_flatMap.mp h' with ⟨cd, hcd, hrow⟩
          exact ⟨a, hc, cd, hcd, hrow⟩
  next hc => cases h

theorem acpRowStep_mem {ws : Ws} {cds : List (Nat × Date)}
    {st : Option (List Char) × List Nat} {r : Nat} {row : Row}
    (h : row ∈ (acpRowStep ws cds st r).2) :
    ∃ a, ws.cells r 1 = .str a ∧
      ∃ cd, cd ∈ cds ∧
        row ∈ acpCellRows ws st.1 (format_preceptor (pyStrip a)) st.2 r cd := by
  simp only [acpRowStep] at h
  split at h
  next a hc =>
    split at h
    · cases h
    · split at h
      · cases h
      · split at h
        · cases h
        · split at h
          · cases h
          · have h' : row ∈ cds.flatMap
                (acpCellRows ws st.1 (format_preceptor (pyStrip a)) st.2 r) := h
            rcases List.mem_flatMap.mp h' with ⟨cd, hcd, hrow⟩
            exact ⟨a, hc, cd, hcd, hrow⟩
  next hc => cases h

theorem pcpSheetRows_mem {year : Nat} {ws : Ws} {rs : List Row} {row : Row}
    (heq : pcpSheetRows year ws = .ok rs) (hrow : row ∈ rs) :
    ∃ cds, parse_header_dates ws year 2 = .ok cds ∧
      ∃ r s, row ∈ (pcpRowStep ws ws.title cds s r).2 := by
  unfold pcpSheetRows at heq
  cases hpd : parse_header_dates ws year 2 with
  | error e => simp only [hpd] at heq; cases heq
  | ok cds =>
    simp only [hpd] at heq
    split at heq
    · cases heq; cases hrow
    · cases heq
      rcases walkRows_mem _ (rowRange ws) none [] row hrow with h0 | ⟨r, hr, s, hs⟩
      · cases h0
      · exact ⟨cds, rfl, r, s, hs⟩

theorem extract_pcp_rows_mem {wb : List Ws} {year : Nat} {res : List Row} {row : Row}
    (heq : extract_pcp_rows wb year = .ok res) (hrow : row ∈ res) :
    ∃ ws, ws ∈ wb ∧ ∃ cds, parse_header_dates ws year 2 = .ok cds ∧
      ∃ r s, row ∈ (pcpRowStep ws ws.title cds s r).2 := by
  rcases pcpSheetsGo_mem year wb [] res heq row hrow with h0 | ⟨ws, hws, rs, hok, hx⟩
  · cases h0
  · rcases pcpSheetRows_mem hok hx with ⟨cds, hcds, r, s, hs⟩
    exact ⟨ws, hws, cds, hcds, r, s, hs⟩

theorem extract_acp_rows_mem {wb : List Ws} {year : Nat} {res : List Row} {row : Row}
    (heq : extract_acp_rows wb year = .ok res) (hrow : row ∈ res) :
    ∃ ws cds, parse_header_dates ws year 3 = .ok cds ∧
      ∃ r st, row ∈ (acpRowStep ws cds st r).2 := by
  cases wb with
  | nil => cases heq
  | cons ws rest =>
    simp only [extract_acp_rows] at heq
    cases hpd : parse_header_dates ws year 3 with
    | error e => simp only [hpd] at heq; cases heq
    | ok cds =>
      simp only [hpd] at heq
      cases heq
      rcases walkRows_mem _ (rowRange ws) (none, []) [] row hrow with h0 | ⟨r, hr, st, hs⟩
      · cases h0
      · exact ⟨ws, cds, hpd, r, st, hs⟩

/-- C1: every record either walker emits has a nonempty student name and a
date that is the ISO form of a calendar date `datetime.date` accepts; and a
cell with a shift code but no parseable time still yields a record whose
start and end times are both empty (shown on a concrete workbook). -/
theorem c1_record_invariant :
    (∀ (wb : List Ws) (year : Nat) (rs : List Row),
        extract_pcp_rows wb year = .ok rs →
        ∀ row ∈ rs,
          row.studentName ≠ [] ∧ ∃ d : Date, dateValid d ∧ row.date = isoformat d) ∧
    (∀ (wb : List Ws) (year : Nat) (rs : List Row),
        extract_acp_rows wb year = .ok rs →
        ∀ row ∈ rs,
          row.studentName ≠ [] ∧ ∃ d : Date, dateValid d ∧ row.date = isoformat d) ∧
    ((extract_pcp_rows [pcpWsCodeOnly] 2025).map
        (List.map (fun row => (row.studentName, row.start, row.stop))) =
      Except.ok [(chars "Jane Doe", [], [])]) := by
  refine ⟨?_, ?_, by decide⟩
  · intro wb year rs heq row hrow
    rcases extract_pcp_rows_mem heq hrow with ⟨ws, hws, cds, hcds, r, s, hs⟩
    rcases pcpRowStep_mem hs with ⟨a, hc, cd, hcd, hcell⟩
    rcases pcpCellRows_sound hcell with ⟨hname, hne, hdate, hloc, hprec⟩
    exact ⟨hne, cd.2, parse_header_dates_valid hcds cd hcd, hdate⟩
  · intro wb year rs heq row hrow
    rcases extract_acp_rows_mem heq hrow with ⟨ws, cds, hcds, r, st, hs⟩
    rcases acpRowStep_mem hs with ⟨a, hc, cd, hcd, hcell⟩
    rcases acpCellRows_sound hcell with ⟨hmem, hdate, hloc, hprec⟩
    exact ⟨acpCollect_ne_nil (dedupGo_subset _ _ _ hmem), cd.2,
      parse_header_dates_valid hcds cd hcd, hdate⟩

theorem c1_record_invariant_witness :
    pcpAboveRow.studentName ≠ [] ∧
    ∃ d : Date, dateValid d ∧ pcpAboveRow.date = isoformat d :=
  c1_record_invariant.1 [pcpWsAbove] 2025 [pcpAboveRow] (by decide)
    pcpAboveRow (List.mem_singleton.mpr rfl)

theorem dedupGo_countP (key : List Char) :
    ∀ (l seen : List (List Char)),
      List.countP (fun s => decide (lowerStr s = key)) (dedupGo seen l) =
        if key ∈ seen then 0
        else if ∃ x ∈ l, lowerStr x = key then 1 else 0 := by
  intro l
  induction l with
  | nil =>
    intro seen
    rw [dedupGo]
    by_cases h : key ∈ seen <;> simp [h]
  | cons a t ih =>
    intro seen
    rw [dedupGo]
    split
    next hmem =>
      have hmem' : lowerStr a ∈ seen := by simpa using hmem
      rw [ih]
      by_cases hk : key ∈ seen
      · simp [hk]
      · have hne : lowerStr a ≠ key := fun h => hk (h ▸ hmem')
        simp [hk, hne]
    next hmem =>
      have hmem' : lowerStr a ∉ seen := by simpa using hmem
      rw [List.countP_cons, ih (lowerStr a :: seen)]
      by_cases hak : lowerStr a = key
      · subst hak
        simp [hmem']
      · by_cases hk : key ∈ seen <;> simp [hk, hak, Ne.symm hak]

theorem dedupGo_sublist : ∀ (seen l : List (List Char)),
    List.Sublist (dedupGo seen l) l := by
  intro seen l
  induction l generalizing seen with
  | nil => exact List.Sublist.refl _
  | cons a t ih =>
    rw [dedupGo]
    split
    · exact List.Sublist.cons a (ih _)
    · exact List.Sublist.cons₂ a (ih _)

theorem acpCellRows_names {ws : Ws} {g : Option (List Char)} {p : List Char}
    {srs : List Nat} {r : Nat} {cd : Nat × Date} :
    (acpCellRows ws g p srs r cd).map Row.studentName =
        dedupCI (acpCollect ws srs cd.1) ∨
    acpCellRows ws g p srs r cd = [] := by
  simp only [acpCellRows]
  split
  next cv hc =>
    split
    · exact Or.inr rfl
    · split
      · exact Or.inr rfl
      next sh hp =>
        split
        · exact Or.inr rfl
        next hne =>
          left
          rw [List.map_map]
          exact List.map_id' _
  next => exact Or.inr rfl

/-- C6: in the ACP walker the per-cell student list is de-duplicated
case-insensitively: for any gathered list, each lowercase key occurs
exactly once among the emitted names iff it occurred at all, the emitted
names are a sublist (first-seen order) of the gathered ones, the records
of a cell carry exactly the de-duplicated names, and no de-duplication
happens across cells: the concrete duplicate-name workbook yields one
record while the same student on two dates yields two records. -/
theorem c6_acp_per_cell_dedup :
    (∀ (l : List (List Char)) (key : List Char),
        List.countP (fun s => decide (lowerStr s = key)) (dedupCI l) =
          if ∃ x ∈ l, lowerStr x = key then 1 else 0) ∧
    (∀ l : List (List Char), List.Sublist (dedupCI l) l) ∧
    (∀ (ws : Ws) (g : Option (List Char)) (p : List Char) (srs : List Nat)
        (r : Nat) (cd : Nat × Date),
        (acpCellRows ws g p srs r cd).map Row.studentName =
            dedupCI (acpCollect ws srs cd.1) ∨
        acpCellRows ws g p srs r cd = []) ∧
    ((extract_acp_rows [acpWsDup] 2025).map (List.map Row.studentName) =
        Except.ok [chars "JANE DOE"]) ∧
    ((extract_acp_rows [acpWsTwoDates] 2025).map
        (List.map (fun row => (row.studentName, row.date))) =
      Except.ok [(chars "Jane Doe", chars "2025-02-04"),
                 (chars "Jane Doe", chars "2025-02-05")]) := by
  refine ⟨?_, ?_, ?_, by decide, by decide⟩
  · intro l key
    rw [dedupCI, dedupGo_countP key l []]
    simp
  · intro l
    exact dedupGo_sublist [] l
  · intro ws g p srs r cd
    exact acpCellRows_names

/-- C5 fails as stated: the ACP walker never composes
`"{sheet} - {group}"`.  On `acpWsDup` (sheet title "Sheet1", active group
label "FRASER VALLEY") the emitted record's Location is the bare group
label, not "Sheet1 - FRASER VALLEY". -/
theorem c5_counterexample :
    (extract_acp_rows [acpWsDup] 2025).map
        (List.map (fun row => (row.location, row.sheet))) =
      Except.ok [(chars "FRASER VALLEY", chars "Sheet1")] ∧
    chars "FRASER VALLEY" ≠ chars "Sheet1" ++ chars " - " ++ chars "FRASER VALLEY" := by
  exact ⟨by decide, by decide⟩

/-- C5 (amended): a PCP record's Location is the active group label when
one is active (composed as "{sheet} - {group}" when it differs from the
sheet name) and the sheet name otherwise; an ACP record's Location is the
active group label when one is active and the literal "ACP" otherwise —
the composition happens only in the PCP walker. -/
theorem c5_location_rule :
    (∀ (ws : Ws) (sn g p : List Char) (srow : Option Nat) (r : Nat)
        (cd : Nat × Date) (row : Row),
        row ∈ pcpCellRows ws sn (some g) p srow r cd →
        row.location = if g ≠ sn then sn ++ chars " - " ++ g else g) ∧
    (∀ (ws : Ws) (sn p : List Char) (srow : Option Nat) (r : Nat)
        (cd : Nat × Date) (row : Row),
        row ∈ pcpCellRows ws sn none p srow r cd → row.location = sn) ∧
    (∀ (ws : Ws) (g p : List Char) (srs : List Nat) (r : Nat)
        (cd : Nat × Date) (row : Row),
        row ∈ acpCellRows ws (some g) p srs r cd → row.location = g) ∧
    (∀ (ws : Ws) (p : List Char) (srs : List Nat) (r : Nat)
        (cd : Nat × Date) (row : Row),
        row ∈ acpCellRows ws none p srs r cd → row.location = chars "ACP") ∧
    ((extract_pcp_rows [pcpWsGroup] 2025).map (List.map Row.location) =
        Except.ok [chars "REGION1 - FRASER VALLEY"]) ∧
    ((extract_acp_rows [acpWsTwoDates] 2025).map (List.map Row.location) =
        Except.ok [chars "ACP", chars "ACP"]) := by
  refine ⟨?_, ?_, ?_, ?_, by decide, by decide⟩
  · intro ws sn g p srow r cd row h
    exact (pcpCellRows_sound h).2.2.2.1
  · intro ws sn p srow r cd row h
    exact (pcpCellRows_sound h).2.2.2.1
  · intro ws g p srs r cd row h
    exact (acpCellRows_sound h).2.2.1
  · intro ws p srs r cd row h
    exact (acpCellRows_sound h).2.2.1

theorem c5_location_rule_witness :
    pcpGroupRow.location =
      (if chars "FRASER VALLEY" ≠ chars "REGION1" then
        chars "REGION1" ++ chars " - " ++ chars "FRASER VALLEY"
      else chars "FRASER VALLEY") :=
  c5_location_rule.1 pcpWsGroup (chars "REGION1") (chars "FRASER VALLEY")
    (chars "John Smith") (some 3) 4 (2, ⟨2025, 1, 6⟩) pcpGroupRow (by decide)

/-- C7: the PCP walker reads the student from the same-column cell of the
adjacent STUDENT row: the row directly above when it carries the label,
else the row directly below; every emitted record's student name comes
from that row, and both concrete layouts yield the record. -/
theorem c7_pcp_adjacent_student :
    (∀ (ws : Ws) (r : Nat), isStudentLabel (ws.cells (r - 1) 1) = true →
        pcp_student_row ws r = some (r - 1)) ∧
    (∀ (ws : Ws) (r : Nat), isStudentLabel (ws.cells (r - 1) 1) = false →
        isStudentLabel (ws.cells (r + 1) 1) = true →
        pcp_student_row ws r = some (r + 1)) ∧
    (∀ (ws : Ws) (sn : List Char) (cds : List (Nat × Date))
        (g : Option (List Char)) (r : Nat) (row : Row),
        row ∈ (pcpRowStep ws sn cds g r).2 →
        ∃ cd, cd ∈ cds ∧
          row.studentName =
            normalize_student (pcpStudentRaw ws (pcp_student_row ws r) cd.1)) ∧
    ((extract_pcp_rows [pcpWsAbove] 2025).map (List.map Row.studentName) =
        Except.ok [chars "Jane Doe"]) ∧
    ((extract_pcp_rows [pcpWsBelow] 2025).map (List.map Row.studentName) =
        Except.ok [chars "Jane Doe"]) := by
  refine ⟨?_, ?_, ?_, by decide, by decide⟩
  · intro ws r h
    unfold pcp_student_row
    rw [if_pos h]
  · intro ws r h1 h2
    unfold pcp_student_row
    rw [if_neg (by simp [h1]), if_pos h2]
  · intro ws sn cds g r row h
    rcases pcpRowStep_mem h with ⟨a, hc, cd, hcd, hcell⟩
    exact ⟨cd, hcd, (pcpCellRows_sound hcell).1⟩

theorem c7_pcp_adjacent_student_witness :
    pcp_student_row pcpWsAbove 3 = some 2 ∧
    pcp_student_row pcpWsBelow 2 = some 3 :=
  ⟨c7_pcp_adjacent_student.1 pcpWsAbove 3 (by decide),
   c7_pcp_adjacent_student.2.1 pcpWsBelow 2 (by decide) (by decide)⟩

/-! ## Whitespace lemmas for abstract-casing inputs -/

theorem lowerChar_ws {c : Char} (h : isWs c = true) : lowerChar c = c := by
  unfold isWs at h
  simp only [Bool.or_eq_true, decide_eq_true_eq] at h
  rcases h with ((((h | h) | h) | h) | h) | h <;> subst h <;> decide

theorem nonWs_of_lower {s m : List Char} (h : lowerStr s = m)
    (hm : ∀ c ∈ m, isWs c = false) : ∀ c ∈ s, isWs c = false := by
  intro c hc
  by_cases hw : isWs c = true
  · exfalso
    have hcm : lowerChar c ∈ m := h ▸ List.mem_map_of_mem lowerChar hc
    have hf := hm _ hcm
    rw [lowerChar_ws hw] at hf
    rw [hf] at hw
    cases hw
  · simpa using hw

theorem dropWhile_cons_nonWs {a : Char} {t : List Char} (h : isWs a = false) :
    (a :: t).dropWhile isWs = a :: t :=
  List.dropWhile_cons_of_neg (by simp [h])

theorem dropWhile_nonWs {s : List Char} (h : ∀ c ∈ s, isWs c = false) :
    s.dropWhile isWs = s := by
  cases s with
  | nil => rfl
  | cons a t => exact dropWhile_cons_nonWs (h a (List.mem_cons_self _ _))

theorem pyStrip_nonWs {s : List Char} (h : ∀ c ∈ s, isWs c = false) :
    pyStrip s = s := by
  unfold pyStrip
  rw [dropWhile_nonWs h,
    dropWhile_nonWs (by intro c hc; exact h c (List.mem_reverse.mp hc)),
    List.reverse_reverse]

theorem collapseGo_nonWs {s : List Char} (h : ∀ c ∈ s, isWs c = false) :
    collapseGo false s = s := by
  induction s with
  | nil => rfl
  | cons a t ih =>
    rw [collapseGo, if_neg (by simp [h a (List.mem_cons_self _ _)])]
    rw [ih (fun c hc => h c (List.mem_cons_of_mem _ hc))]

theorem squashWs_nonWs {s : List Char} (h : ∀ c ∈ s, isWs c = false) :
    squashWs s = s := by
  unfold squashWs collapseRuns
  rw [pyStrip_nonWs h, collapseGo_nonWs h]

theorem collapseGo_append {s : List Char} (h : ∀ c ∈ s, isWs c = false)
    (rest : List Char) :
    collapseGo false (s ++ rest) = s ++ collapseGo false rest := by
  induction s with
  | nil => rfl
  | cons a t ih =>
    rw [List.cons_append, collapseGo, if_neg (by simp [h a (List.mem_cons_self _ _)])]
    rw [ih (fun c hc => h c (List.mem_cons_of_mem _ hc)), List.cons_append]

theorem pyStrip_append_columbia {a : Char} {t : List Char} (ha : isWs a = false) :
    pyStrip ((a :: t) ++ chars " - Columbia") = (a :: t) ++ chars " - Columbia" := by
  unfold pyStrip
  rw [List.cons_append, dropWhile_cons_nonWs ha]
  rw [← List.cons_append, List.reverse_append]
  rw [(by decide : (chars " - Columbia").reverse = 'a' :: chars "ibmuloC - ")]
  rw [List.cons_append, dropWhile_cons_nonWs (by decide)]
  rw [← List.cons_append,
    (by decide : 'a' :: chars "ibmuloC - " = (chars " - Columbia").reverse),
    ← List.reverse_append, List.reverse_reverse]

/-- All the early rejection branches of `normalize_student` return `""`;
in particular a partner marker (after whitespace normalization) does. -/
theorem normalize_student_partner {raw : List Char}
    (h : is_partner_marker (squashWs raw) = true) : normalize_student raw = [] := by
  simp only [normalize_student]
  split
  · rfl
  · split
    · rfl
    · simp [h]

/-- C9 fails as stated: the partner-marker typo 'partnre' with the
Columbia suffix is not rejected — `normalize_student` returns 'partnre',
not the empty string. -/
theorem c9_counterexample :
    normalize_student (chars "partnre - Columbia") = chars "partnre" ∧
    chars "partnre" ≠ [] := ⟨by decide, by decide⟩

/-- C9 (amended): a bare partner marker from the typo set, in any casing,
normalizes to the empty string; with a ' - Columbia' suffix only the
variants containing "partner" or "parnter" as substrings are rejected,
while 'partnre', 'parter' and 'prtnr' pass the partner filter and survive
as student names. -/
theorem c9_partner_markers :
    (∀ s : List Char, lowerStr s ∈ PARTNER_MARKERS → normalize_student s = []) ∧
    (∀ s : List Char,
        lowerStr s = chars "partner" ∨ lowerStr s = chars "parnter" →
        normalize_student (s ++ chars " - Columbia") = []) ∧
    normalize_student (chars "PARTNRE - Columbia") = chars "PARTNRE" ∧
    normalize_student (chars "Parter - Columbia") = chars "Parter" ∧
    normalize_student (chars "PRTNR - Columbia") = chars "PRTNR" := by
  refine ⟨?_, ?_, by decide, by decide, by decide⟩
  · intro s h
    have hnw : ∀ c ∈ s, isWs c = false := by
      simp only [PARTNER_MARKERS, List.mem_cons, List.not_mem_nil, or_false] at h
      rcases h with h | h | h | h | h
      · exact nonWs_of_lower h (by decide)
      · exact nonWs_of_lower h (by decide)
      · exact nonWs_of_lower h (by decide)
      · exact nonWs_of_lower h (by decide)
      · exact nonWs_of_lower h (by decide)
    apply normalize_student_partner
    rw [squashWs_nonWs hnw]
    simp only [is_partner_marker]
    rw [pyStrip_nonWs hnw]
    simp [h]
  · intro s h
    have hm : ∀ c ∈ (chars "partner"), isWs c = false := by decide
    have hm' : ∀ c ∈ (chars "parnter"), isWs c = false := by decide
    have hnw : ∀ c ∈ s, isWs c = false := by
      rcases h with h | h
      · exact nonWs_of_lower h hm
      · exact nonWs_of_lower h hm'
    cases hs : s with
    | nil =>
      exfalso
      rw [hs] at h
      rcases h with h | h <;> cases h
    | cons a t =>
      subst hs
      have hsq : squashWs ((a :: t) ++ chars " - Columbia") =
          (a :: t) ++ chars " - Columbia" := by
        unfold squashWs collapseRuns
        rw [pyStrip_append_columbia (hnw a (List.mem_cons_self _ _))]
        rw [collapseGo_append hnw,
          (by decide : collapseGo false (chars " - Columbia") = chars " - Columbia")]
      apply normalize_student_partner
      rw [hsq]
      simp only [is_partner_marker]
      rw [pyStrip_append_columbia (hnw a (List.mem_cons_self _ _))]
      simp only [lowerStr, List.map_append]
      have hlc : List.map lowerChar (chars " - Columbia") = chars " - columbia" := by
        decide
      rcases h with h | h
      · rw [show List.map lowerChar (a :: t) = chars "partner" from h, hlc]
        decide
      · rw [show List.map lowerChar (a :: t) = chars "parnter" from h, hlc]
        decide

theorem c9_partner_markers_witness :
    normalize_student (chars "PaRtNeR") = [] ∧
    normalize_student (chars "Partner" ++ chars " - Columbia") = [] :=
  ⟨c9_partner_markers.1 (chars "PaRtNeR") (by decide),
   c9_partner_markers.2.1 (chars "Partner") (Or.inl (by decide))⟩

/-! ## Symbolic evaluation of `parse_shift` on whole-cell time ranges -/

theorem ws_cases {c : Char} (h : isWs c = true) :
    c = ' ' ∨ c = '\t' ∨ c = '\n' ∨ c = '\r' ∨ c = '\x0b' ∨ c = '\x0c' := by
  unfold isWs at h
  simp only [Bool.or_eq_true, decide_eq_true_eq] at h
  tauto

theorem digit_not_ws {c : Char} (h : c.isDigit = true) : isWs c = false := by
  by_cases hw : isWs c = true
  · rcases ws_cases hw with rfl | rfl | rfl | rfl | rfl | rfl <;>
      exact absurd h (by decide)
  · simpa using hw

theorem digit_ne_nl {c : Char} (h : c.isDigit = true) : c ≠ '\n' := by
  intro hc
  subst hc
  exact absurd h (by decide)

theorem isColonTimeB_shape {a : List Char} (h : isColonTimeB a = true) :
    (∃ h1 m1 m2 : Char, a = [h1, ':', m1, m2] ∧
      h1.isDigit = true ∧ m1.isDigit = true ∧ m2.isDigit = true) ∨
    (∃ h1 h2 m1 m2 : Char, a = [h1, h2, ':', m1, m2] ∧
      h1.isDigit = true ∧ h2.isDigit = true ∧ m1.isDigit = true ∧ m2.isDigit = true) := by
  unfold isColonTimeB at h
  split at h
  next h1 c m1 m2 =>
    simp only [Bool.and_eq_true, beq_iff_eq] at h
    obtain ⟨⟨⟨hd, hc⟩, h1d⟩, h2d⟩ := h
    subst hc
    exact Or.inl ⟨_, _, _, rfl, hd, h1d, h2d⟩
  next h1 h2 c m1 m2 =>
    simp only [Bool.and_eq_true, beq_iff_eq] at h
    obtain ⟨⟨⟨⟨hd1, hd2⟩, hc⟩, h1d⟩, h2d⟩ := h
    subst hc
    exact Or.inr ⟨_, _, _, _, rfl, hd1, hd2, h1d, h2d⟩
  next => cases h

theorem isMilTimeB_shape {a : List Char} (h : isMilTimeB a = true) :
    (∃ d1 d2 d3 : Char, a = [d1, d2, d3] ∧
      d1.isDigit = true ∧ d2.isDigit = true ∧ d3.isDigit = true) ∨
    (∃ d1 d2 d3 d4 : Char, a = [d1, d2, d3, d4] ∧
      d1.isDigit = true ∧ d2.isDigit = true ∧ d3.isDigit = true ∧ d4.isDigit = true) := by
  unfold isMilTimeB at h
  simp only [Bool.and_eq_true, Bool.or_eq_true, decide_eq_true_eq] at h
  obtain ⟨hlen, hall⟩ := h
  rcases hlen with h3 | h4
  · match a, h3 with
    | [d1, d2, d3], _ =>
      simp only [List.all_cons, List.all_nil, Bool.and_eq_true, Bool.and_true] at hall
      exact Or.inl ⟨_, _, _, rfl, hall.1, hall.2.1, hall.2.2⟩
  · match a, h4 with
    | [d1, d2, d3, d4], _ =>
      simp only [List.all_cons, List.all_nil, Bool.and_eq_true, Bool.and_true] at hall
      exact Or.inr ⟨_, _, _, _, rfl, hall.1, hall.2.1, hall.2.2.1, hall.2.2.2⟩

theorem colonTime_nonWs {a : List Char} (h : isColonTimeB a = true) :
    ∀ c ∈ a, isWs c = false := by
  rcases isColonTimeB_shape h with ⟨h1, m1, m2, rfl, hd, h1d, h2d⟩ |
    ⟨h1, h2, m1, m2, rfl, hd1, hd2, h1d, h2d⟩ <;>
    intro c hc <;> simp only [List.mem_cons, List.not_mem_nil, or_false] at hc
  · rcases hc with rfl | rfl | rfl | rfl
    · exact digit_not_ws hd
    · decide
    · exact digit_not_ws h1d
    · exact digit_not_ws h2d
  · rcases hc with rfl | rfl | rfl | rfl | rfl
    · exact digit_not_ws hd1
    · exact digit_not_ws hd2
    · decide
    · exact digit_not_ws h1d
    · exact digit_not_ws h2d

theorem colonTime_ne_nl {a : List Char} (h : isColonTimeB a = true) :
    ∀ c ∈ a, c ≠ '\n' := by
  rcases isColonTimeB_shape h with ⟨h1, m1, m2, rfl, hd, h1d, h2d⟩ |
    ⟨h1, h2, m1, m2, rfl, hd1, hd2, h1d, h2d⟩ <;>
    intro c hc <;> simp only [List.mem_cons, List.not_mem_nil, or_false] at hc
  · rcases hc with rfl | rfl | rfl | rfl
    · exact digit_ne_nl hd
    · decide
    · exact digit_ne_nl h1d
    · exact digit_ne_nl h2d
  · rcases hc with rfl | rfl | rfl | rfl | rfl
    · exact digit_ne_nl hd1
    · exact digit_ne_nl hd2
    · decide
    · exact digit_ne_nl h1d
    · exact digit_ne_nl h2d

theorem milTime_nonWs {a : List Char} (h : isMilTimeB a = true) :
    ∀ c ∈ a, isWs c = false := by
  intro c hc
  unfold isMilTimeB at h
  simp only [Bool.and_eq_true] at h
  exact digit_not_ws (by
    have := h.2
    rw [List.all_eq_true] at this
    exact this c hc)

theorem milTime_ne_nl {a : List Char} (h : isMilTimeB a = true) :
    ∀ c ∈ a, c ≠ '\n' := by
  intro c hc
  unfold isMilTimeB at h
  simp only [Bool.and_eq_true] at h
  exact digit_ne_nl (by
    have := h.2
    rw [List.all_eq_true] at this
    exact this c hc)

theorem pyReplaceNL_eq {s : List Char} (h : ∀ c ∈ s, c ≠ '\n') :
    pyReplaceNL s = s := by
  unfold pyReplaceNL
  induction s with
  | nil => rfl
  | cons a t ih =>
    rw [List.map_cons, if_neg (h a (List.mem_cons_self _ _)),
      ih (fun c hc => h c (List.mem_cons_of_mem _ hc))]

theorem splitWsGo_nonWs : ∀ (s cur : List Char), (∀ c ∈ s, isWs c = false) →
    splitWsGo cur s =
      if cur.reverse ++ s = [] then [] else [cur.reverse ++ s] := by
  intro s
  induction s with
  | nil =>
    intro cur h
    rw [splitWsGo]
    by_cases hc : cur = []
    · subst hc; rfl
    · rw [if_neg hc, List.append_nil,
        if_neg (by simpa using fun h0 => hc (by simpa using congrArg List.reverse h0))]
  | cons c t ih =>
    intro cur h
    rw [splitWsGo, if_neg (by simp [h c (List.mem_cons_self _ _)])]
    rw [ih (c :: cur) (fun x hx => h x (List.mem_cons_of_mem _ hx))]
    rw [List.reverse_cons, List.append_assoc]
    simp

theorem digit_ne_colon {c : Char} (h : c.isDigit = true) : c ≠ ':' := by
  intro hc; subst hc; exact absurd h (by decide)

theorem sep_not_ws {sep : Char} (h : isRangeSep sep) : isWs sep = false := by
  rcases h with rfl | rfl <;> decide

theorem sep_ne_nl {sep : Char} (h : isRangeSep sep) : sep ≠ '\n' := by
  rcases h with rfl | rfl <;> decide

theorem sep_not_digit {sep : Char} (h : isRangeSep sep) : sep.isDigit = false := by
  rcases h with rfl | rfl <;> decide

theorem sep_not_alnum {sep : Char} (h : isRangeSep sep) : isAlnumAscii sep = false := by
  rcases h with rfl | rfl <;> decide

theorem matchHM_colon {a : List Char} (rest : List Char) (h : isColonTimeB a = true) :
    matchHM (a ++ rest) = some (a, rest) := by
  rcases isColonTimeB_shape h with ⟨h1, m1, m2, rfl, hd, h1d, h2d⟩ |
    ⟨h1, h2, m1, m2, rfl, hd1, hd2, h1d, h2d⟩
  · cases rest with
    | nil =>
      simp only [List.cons_append, List.nil_append, List.append_nil]
      simp only [matchHM]
      rw [if_pos ⟨hd, trivial, h1d, h2d⟩]
    | cons e rest' =>
      simp only [List.cons_append, List.nil_append]
      simp only [matchHM]
      rw [if_neg (fun hcon => absurd hcon.2.1 (by decide)),
        if_pos ⟨hd, trivial, h1d, h2d⟩]
  · simp only [List.cons_append, List.nil_append]
    simp only [matchHM]
    rw [if_pos ⟨hd1, hd2, trivial, h1d, h2d⟩]

theorem matchSep_go {sep : Char} (hsep : isRangeSep sep) (b : List Char) :
    matchSep (sep :: b) = some b := by
  unfold matchSep
  rw [show skipWs (sep :: b) = sep :: b from dropWhile_cons_nonWs (sep_not_ws hsep)]
  exact if_pos hsep

theorem matchColonRange_exact {a b : List Char} {sep : Char} (hsep : isRangeSep sep)
    (ha : isColonTimeB a = true) (hb : isColonTimeB b = true) :
    matchColonRange (a ++ sep :: b) = some (a, b) := by
  unfold matchColonRange
  simp only [matchHM_colon (sep :: b) ha]
  simp only [matchSep_go hsep]
  rw [show skipWs b = b from dropWhile_nonWs (colonTime_nonWs hb)]
  have hb' : matchHM b = some (b, []) := by
    have h0 := matchHM_colon [] hb
    rwa [List.append_nil] at h0
  simp only [hb']

theorem matchHM_mil_fail {a b : List Char} {sep : Char}
    (ha : isMilTimeB a = true) (hb : isMilTimeB b = true) :
    matchHM (a ++ sep :: b) = none := by
  have hbne : ∃ e brest, b = e :: brest := by
    rcases isMilTimeB_shape hb with ⟨d1, d2, d3, rfl, _⟩ | ⟨d1, d2, d3, d4, rfl, _⟩
    · exact ⟨_, _, rfl⟩
    · exact ⟨_, _, rfl⟩
  obtain ⟨e, brest, rfl⟩ := hbne
  rcases isMilTimeB_shape ha with ⟨d1, d2, d3, rfl, hd1, hd2, hd3⟩ |
    ⟨d1, d2, d3, d4, rfl, hd1, hd2, hd3, hd4⟩
  · simp only [List.cons_append, List.nil_append]
    simp only [matchHM]
    rw [if_neg (fun hcon => digit_ne_colon hd3 hcon.2.2.1),
      if_neg (fun hcon => digit_ne_colon hd2 hcon.2.1)]
  · simp only [List.cons_append, List.nil_append]
    simp only [matchHM]
    rw [if_neg (fun hcon => digit_ne_colon hd3 hcon.2.2.1),
      if_neg (fun hcon => digit_ne_colon hd2 hcon.2.1)]

theorem matchDigitRange_exact {a b : List Char} {sep : Char} (hsep : isRangeSep sep)
    (ha : isMilTimeB a = true) (hb : isMilTimeB b = true) :
    matchDigitRange (a ++ sep :: b) = some (a, b) := by
  have htail : matchDigitTail a (sep :: b) = some (a, b) := by
    unfold matchDigitTail
    simp only [matchSep_go hsep]
    rw [show skipWs b = b from dropWhile_nonWs (milTime_nonWs hb)]
    rcases isMilTimeB_shape hb with ⟨e1, e2, e3, rfl, he1, he2, he3⟩ |
      ⟨e1, e2, e3, e4, rfl, he1, he2, he3, he4⟩
    · simp only [take4Digits, take3Digits]
      rw [if_pos ⟨he1, he2, he3⟩]
    · simp only [take4Digits]
      rw [if_pos ⟨he1, he2, he3, he4⟩]
  rcases isMilTimeB_shape ha with ⟨d1, d2, d3, rfl, hd1, hd2, hd3⟩ |
    ⟨d1, d2, d3, d4, rfl, hd1, hd2, hd3, hd4⟩
  · unfold matchDigitRange
    simp only [List.cons_append, List.nil_append]
    simp only [take4Digits]
    rw [if_neg (fun hcon => absurd hcon.2.2.2 (by simp [sep_not_digit hsep]))]
    dsimp only
    simp only [take3Digits]
    rw [if_pos ⟨hd1, hd2, hd3⟩]
    dsimp only
    exact htail
  · unfold matchDigitRange
    simp only [List.cons_append, List.nil_append]
    simp only [take4Digits]
    rw [if_pos ⟨hd1, hd2, hd3, hd4⟩]
    dsimp only
    rw [htail]

theorem findTR_colon {a b : List Char} {sep : Char} (hsep : isRangeSep sep)
    (ha : isColonTimeB a = true) (hb : isColonTimeB b = true) :
    findTR (a ++ sep :: b) = some (true, a, b) := by
  obtain ⟨c, arest, rfl⟩ : ∃ c arest, a = c :: arest := by
    rcases isColonTimeB_shape ha with ⟨h1, m1, m2, rfl, _⟩ | ⟨h1, h2, m1, m2, rfl, _⟩
    · exact ⟨_, _, rfl⟩
    · exact ⟨_, _, rfl⟩
  rw [List.cons_append, findTR, ← List.cons_append, matchColonRange_exact hsep ha hb]

theorem findTR_mil {a b : List Char} {sep : Char} (hsep : isRangeSep sep)
    (ha : isMilTimeB a = true) (hb : isMilTimeB b = true) :
    findTR (a ++ sep :: b) = some (false, a, b) := by
  obtain ⟨c, arest, rfl⟩ : ∃ c arest, a = c :: arest := by
    rcases isMilTimeB_shape ha with ⟨d1, d2, d3, rfl, _⟩ | ⟨d1, d2, d3, d4, rfl, _⟩
    · exact ⟨_, _, rfl⟩
    · exact ⟨_, _, rfl⟩
  have hcr : matchColonRange ((c :: arest) ++ sep :: b) = none := by
    unfold matchColonRange
    rw [matchHM_mil_fail ha hb]
  rw [List.cons_append, findTR, ← List.cons_append, hcr]
  dsimp only
  rw [matchDigitRange_exact hsep ha hb]

theorem isCodeToken_colon_fail {a b : List Char} {sep : Char}
    (ha : isColonTimeB a = true) :
    isCodeToken (a ++ sep :: b) = false := by
  rcases isColonTimeB_shape ha with ⟨h1, m1, m2, rfl, _, _, _⟩ |
    ⟨h1, h2, m1, m2, rfl, _, _, _, _⟩
  · simp [isCodeToken, (by decide : (':' : Char).isDigit = false)]
  · simp [isCodeToken, (by decide : (':' : Char).isDigit = false)]

theorem isCodeToken_mil_fail {a b : List Char} {sep : Char} (hsep : isRangeSep sep)
    (ha : isMilTimeB a = true) :
    isCodeToken (a ++ sep :: b) = false := by
  rcases isMilTimeB_shape ha with ⟨d1, d2, d3, rfl, _⟩ | ⟨d1, d2, d3, d4, rfl, _⟩
  · simp [isCodeToken, sep_not_alnum hsep]
  · simp [isCodeToken, sep_not_alnum hsep]

theorem parse_shift_colon {a b : List Char} {sep : Char} (hsep : isRangeSep sep)
    (ha : isColonTimeB a = true) (hb : isColonTimeB b = true) :
    parse_shift (a ++ sep :: b) =
      some { raw := a ++ sep :: b, code := [], start := a, stop := b,
             station := [], ambulance := [] } := by
  have hane : a ≠ [] := by
    rcases isColonTimeB_shape ha with ⟨_, _, _, rfl, _⟩ | ⟨_, _, _, _, rfl, _⟩ <;> simp
  have hnw : ∀ c ∈ a ++ sep :: b, isWs c = false := by
    intro c hc
    rcases List.mem_append.mp hc with h | h
    · exact colonTime_nonWs ha c h
    · rcases List.mem_cons.mp h with rfl | h
      · exact sep_not_ws hsep
      · exact colonTime_nonWs hb c h
  have hnl : ∀ c ∈ a ++ sep :: b, c ≠ '\n' := by
    intro c hc
    rcases List.mem_append.mp hc with h | h
    · exact colonTime_ne_nl ha c h
    · rcases List.mem_cons.mp h with rfl | h
      · exact sep_ne_nl hsep
      · exact colonTime_ne_nl hb c h
  have htne : a ++ sep :: b ≠ [] := by simp
  have hsplit : pySplit (a ++ sep :: b) = [a ++ sep :: b] := by
    rw [pySplit, splitWsGo_nonWs _ [] hnw]
    rw [List.reverse_nil, List.nil_append, if_neg htne]
  have hfind : ([a ++ sep :: b]).find? isCodeToken = none := by
    simp [List.find?, isCodeToken_colon_fail ha]
  simp only [parse_shift, if_neg htne, pyReplaceNL_eq hnl, pyStrip_nonWs hnw,
    hsplit, hfind, findTR_colon hsep ha hb]
  simp [hane]

theorem parse_shift_mil {a b : List Char} {sep : Char} (hsep : isRangeSep sep)
    (ha : isMilTimeB a = true) (hb : isMilTimeB b = true) :
    parse_shift (a ++ sep :: b) =
      some { raw := a ++ sep :: b, code := [], start := norm_hhmm a,
             stop := norm_hhmm b, station := [], ambulance := [] } := by
  have hnorm_ne : norm_hhmm a ≠ [] := by
    unfold norm_hhmm
    split <;> simp [pad2]
  have hnw : ∀ c ∈ a ++ sep :: b, isWs c = false := by
    intro c hc
    rcases List.mem_append.mp hc with h | h
    · exact milTime_nonWs ha c h
    · rcases List.mem_cons.mp h with rfl | h
      · exact sep_not_ws hsep
      · exact milTime_nonWs hb c h
  have hnl : ∀ c ∈ a ++ sep :: b, c ≠ '\n' := by
    intro c hc
    rcases List.mem_append.mp hc with h | h
    · exact milTime_ne_nl ha c h
    · rcases List.mem_cons.mp h with rfl | h
      · exact sep_ne_nl hsep
      · exact milTime_ne_nl hb c h
  have htne : a ++ sep :: b ≠ [] := by simp
  have hsplit : pySplit (a ++ sep :: b) = [a ++ sep :: b] := by
    rw [pySplit, splitWsGo_nonWs _ [] hnw]
    rw [List.reverse_nil, List.nil_append, if_neg htne]
  have hfind : ([a ++ sep :: b]).find? isCodeToken = none := by
    simp [List.find?, isCodeToken_mil_fail hsep ha]
  simp only [parse_shift, if_neg htne, pyReplaceNL_eq hnl, pyStrip_nonWs hnw,
    hsplit, hfind, findTR_mil hsep ha hb]
  simp [hnorm_ne]

/-- C3 fails as stated: a cell may contain a colon-form range and still
not return it, because the regex keeps the leftmost match.  In
'700-800 9:00-10:00' the colon range '9:00-10:00' is present, yet
`parse_shift` returns the zero-padded digit-form times '07:00'/'08:00',
not '9:00'/'10:00' unchanged. -/
theorem c3_counterexample :
    (matchColonRange (chars "9:00-10:00")).isSome = true ∧
    isSub (chars "9:00-10:00") (chars "700-800 9:00-10:00") = true ∧
    (parse_shift (chars "700-800 9:00-10:00")).map (fun sh => (sh.start, sh.stop)) =
      some (chars "07:00", chars "08:00") ∧
    (chars "07:00", chars "08:00") ≠ (chars "9:00", chars "10:00") :=
  ⟨by decide, by decide, by decide, by decide⟩

/-- C3 (amended): for every cell whose text is exactly a colon-form range
'H:MM-H:MM' (hyphen or en-dash), `parse_shift` returns start and end
exactly as they appear; for every cell that is exactly a 3-or-4-digit
military range, both sides are zero-padded via `norm_hhmm` — in
particular '700-1530' yields '07:00'/'15:30'.  (When a cell merely
contains several ranges, the leftmost regex match decides.) -/
theorem c3_time_range_parsing :
    (∀ (a b : List Char) (sep : Char), isRangeSep sep →
        isColonTimeB a = true → isColonTimeB b = true →
        (parse_shift (a ++ sep :: b)).map (fun sh => (sh.start, sh.stop)) =
          some (a, b)) ∧
    (∀ (a b : List Char) (sep : Char), isRangeSep sep →
        isMilTimeB a = true → isMilTimeB b = true →
        (parse_shift (a ++ sep :: b)).map (fun sh => (sh.start, sh.stop)) =
          some (norm_hhmm a, norm_hhmm b)) ∧
    ((parse_shift (chars "700-1530")).map (fun sh => (sh.start, sh.stop)) =
        some (chars "07:00", chars "15:30")) ∧
    ((parse_shift (chars "7:00-15:30")).map (fun sh => (sh.start, sh.stop)) =
        some (chars "7:00", chars "15:30")) := by
  refine ⟨?_, ?_, by decide, by decide⟩
  · intro a b sep hsep ha hb
    rw [parse_shift_colon hsep ha hb]
    rfl
  · intro a b sep hsep ha hb
    rw [parse_shift_mil hsep ha hb]
    rfl

theorem c3_time_range_parsing_witness :
    (parse_shift (chars "9:00" ++ '-' :: chars "10:00")).map
        (fun sh => (sh.start, sh.stop)) = some (chars "9:00", chars "10:00") ∧
    (parse_shift (chars "0700" ++ '–' :: chars "1900")).map
        (fun sh => (sh.start, sh.stop)) =
      some (norm_hhmm (chars "0700"), norm_hhmm (chars "1900")) :=
  ⟨c3_time_range_parsing.1 (chars "9:00") (chars "10:00") '-' (Or.inl rfl)
      (by decide) (by decide),
   c3_time_range_parsing.2.1 (chars "0700") (chars "1900") '–' (Or.inr rfl)
      (by decide) (by decide)⟩

theorem allWs_nil : allWs [] := by intro c hc; cases hc

theorem allWs_cons {c : Char} {l : List Char} (hc : isWs c = true) (hl : allWs l) :
    allWs (c :: l) := by
  intro x hx
  rcases List.mem_cons.mp hx with rfl | hx
  · exact hc
  · exact hl x hx

theorem allWs_tail {c : Char} {l : List Char} (h : allWs (c :: l)) : allWs l :=
  fun x hx => h x (List.mem_cons_of_mem _ hx)

theorem allWs_append {l1 l2 : List Char} (h1 : allWs l1) (h2 : allWs l2) :
    allWs (l1 ++ l2) := by
  intro x hx
  rcases List.mem_append.mp hx with hx | hx
  · exact h1 x hx
  · exact h2 x hx

theorem allWs_of_collapseGo : ∀ (t : List Char) (flag : Bool),
    allWs (collapseGo flag t) → allWs t := by
  intro t
  induction t with
  | nil => intro flag _ c hc; cases hc
  | cons d u ih =>
    intro flag h
    by_cases hd : isWs d = true
    · rw [collapseGo, if_pos hd] at h
      refine allWs_cons hd ?_
      cases flag with
      | true => simpa using ih true (by simpa using h)
      | false =>
        simp only [Bool.false_eq_true, if_false] at h
        exact ih true (allWs_tail h)
    · rw [collapseGo, if_neg hd] at h
      exact absurd (h d (List.mem_cons_self _ _)) (by simp [hd])

theorem hcs_cons {c : Char} {t : List Char}
    (h : HasColumbiaSuffix t) : HasColumbiaSuffix (c :: t) := by
  obtain ⟨a, w1, cw, w2, heq, hw1, hw2, hcw⟩ := h
  exact ⟨c :: a, w1, cw, w2, by rw [heq]; rfl, hw1, hw2, hcw⟩

/-- If the whitespace-collapsed text decomposes as whitespace, a fixed
non-whitespace block `cw`, then whitespace, so does the original text.
When `flag` is false and the collapsed text starts directly with `cw`, so
does the original. -/
theorem collapseGo_block_decomp :
    ∀ (t : List Char) (flag : Bool) (w1 cw w2 : List Char),
      allWs w1 → (∀ c ∈ cw, isWs c = false) → cw ≠ [] → allWs w2 →
      collapseGo flag t = w1 ++ cw ++ w2 →
      ∃ w1' w2', t = w1' ++ cw ++ w2' ∧ allWs w1' ∧ allWs w2' ∧
        (flag = false → w1 = [] → w1' = []) := by
  intro t
  induction t with
  | nil =>
    intro flag w1 cw w2 hw1 hcw hcwne hw2 heq
    rw [collapseGo] at heq
    exact absurd heq.symm (by simp [hcwne])
  | cons d u ih =>
    intro flag w1 cw w2 hw1 hcw hcwne hw2 heq
    by_cases hd : isWs d = true
    · rw [collapseGo, if_pos hd] at heq
      cases flag with
      | true =>
        simp only at heq
        obtain ⟨w1', w2', hu, hw1', hw2', _⟩ := ih true w1 cw w2 hw1 hcw hcwne hw2 heq
        exact ⟨d :: w1', w2', by rw [hu]; rfl, allWs_cons hd hw1', hw2',
          fun hf => by cases hf⟩
      | false =>
        simp only [Bool.false_eq_true, if_false] at heq
        cases w1 with
        | nil =>
          exfalso
          cases cw with
          | nil => exact hcwne rfl
          | cons c0 cwr =>
            simp only [List.nil_append, List.cons_append, List.cons.injEq] at heq
            have := hcw c0 (List.mem_cons_self _ _)
            rw [← heq.1] at this
            exact absurd this (by decide)
        | cons v w1r =>
          simp only [List.cons_append, List.cons.injEq] at heq
          obtain ⟨w1', w2', hu, hw1', hw2', _⟩ :=
            ih true w1r cw w2 (allWs_tail hw1) hcw hcwne hw2 heq.2
          exact ⟨d :: w1', w2', by rw [hu]; rfl, allWs_cons hd hw1', hw2',
            fun _ hcontra => by cases hcontra⟩
    · rw [collapseGo, if_neg hd] at heq
      cases w1 with
      | cons v w1r =>
        exfalso
        simp only [List.cons_append, List.cons.injEq] at heq
        have := hw1 v (List.mem_cons_self _ _)
        rw [← heq.1] at this
        exact hd this
      | nil =>
        cases cw with
        | nil => exact absurd rfl hcwne
        | cons c0 cwr =>
          simp only [List.nil_append, List.cons_append, List.cons.injEq] at heq
          cases cwr with
          | nil =>
            have hu : allWs u := by
              refine allWs_of_collapseGo u false ?_
              rw [heq.2]
              simpa using hw2
            refine ⟨[], u, ?_, allWs_nil, hu, fun _ _ => rfl⟩
            rw [heq.1]
            rfl
          | cons c1 cwr2 =>
            obtain ⟨w1', w2', hu, hw1', hw2', hnil⟩ :=
              ih false [] (c1 :: cwr2) w2 allWs_nil
                (fun c hc => hcw c (List.mem_cons_of_mem _ hc))
                (by simp) hw2 (by simpa using heq.2)
            have hz : w1' = [] := hnil rfl rfl
            subst hz
            refine ⟨[], w2', ?_, allWs_nil, hw2', fun _ _ => rfl⟩
            rw [heq.1]
            simp only [List.nil_append] at hu
            rw [hu]
            rfl

theorem columbia_chars_nonWs {cw : List Char}
    (hcw : lowerStr cw = chars "columbia") : ∀ c ∈ cw, isWs c = false :=
  nonWs_of_lower hcw (by decide)

theorem columbia_chars_ne_nil {cw : List Char}
    (hcw : lowerStr cw = chars "columbia") : cw ≠ [] := by
  intro h
  rw [h] at hcw
  cases hcw

/-- A Columbia suffix in the whitespace-collapsed text implies one in the
original text. -/
theorem suffix_of_collapseGo : ∀ (y : List Char) (flag : Bool),
    HasColumbiaSuffix (collapseGo flag y) → HasColumbiaSuffix y := by
  intro y
  induction y with
  | nil =>
    intro flag h
    obtain ⟨a, w1, cw, w2, heq, _, _, _⟩ := h
    rw [collapseGo] at heq
    exact absurd heq.symm (by simp)
  | cons c t ih =>
    intro flag h
    by_cases hc : isWs c = true
    · rw [collapseGo, if_pos hc] at h
      cases flag with
      | true =>
        simp only at h
        exact hcs_cons (ih true h)
      | false =>
        simp only [Bool.false_eq_true, if_false] at h
        obtain ⟨a, w1, cw, w2, heq, hw1, hw2, hcw⟩ := h
        cases a with
        | nil =>
          exfalso
          simp only [List.nil_append, List.cons.injEq] at heq
          exact absurd heq.1 (by decide)
        | cons v a' =>
          simp only [List.cons_append, List.cons.injEq] at heq
          exact hcs_cons (ih true ⟨a', w1, cw, w2, heq.2, hw1, hw2, hcw⟩)
    · rw [collapseGo, if_neg hc] at h
      obtain ⟨a, w1, cw, w2, heq, hw1, hw2, hcw⟩ := h
      cases a with
      | nil =>
        simp only [List.nil_append, List.cons.injEq] at heq
        obtain ⟨w1', w2', ht, hw1', hw2', _⟩ :=
          collapseGo_block_decomp t false w1 cw w2 hw1
            (columbia_chars_nonWs hcw) (columbia_chars_ne_nil hcw) hw2 heq.2
        refine ⟨[], w1', cw, w2', ?_, hw1', hw2', hcw⟩
        rw [heq.1, ht]
        rfl
      | cons v a' =>
        simp only [List.cons_append, List.cons.injEq] at heq
        exact hcs_cons (ih false ⟨a', w1, cw, w2, heq.2, hw1, hw2, hcw⟩)

theorem allWs_takeWhile (l : List Char) : allWs (l.takeWhile isWs) := by
  intro c hc
  exact List.mem_takeWhile_imp hc

theorem allWs_reverse {l : List Char} (h : allWs l) : allWs l.reverse := by
  intro c hc
  exact h c (List.mem_reverse.mp hc)

theorem pyStrip_decomp (s : List Char) :
    ∃ lead trail, s = lead ++ pyStrip s ++ trail ∧ allWs lead ∧ allWs trail := by
  refine ⟨s.takeWhile isWs, ((s.dropWhile isWs).reverse.takeWhile isWs).reverse,
    ?_, allWs_takeWhile s, allWs_reverse (allWs_takeWhile _)⟩
  unfold pyStrip
  conv_lhs => rw [← List.takeWhile_append_dropWhile (p := isWs) (l := s)]
  rw [List.append_assoc]
  congr 1
  conv_lhs => rw [← List.reverse_reverse (s.dropWhile isWs),
    ← List.takeWhile_append_dropWhile (p := isWs) (l := (s.dropWhile isWs).reverse)]
  rw [List.reverse_append]

theorem suffix_of_pyStrip {s : List Char} (h : HasColumbiaSuffix (pyStrip s)) :
    HasColumbiaSuffix s := by
  obtain ⟨lead, trail, hdec, hl, ht⟩ := pyStrip_decomp s
  obtain ⟨a, w1, cw, w2, heq, hw1, hw2, hcw⟩ := h
  refine ⟨lead ++ a, w1, cw, w2 ++ trail, ?_, hw1, allWs_append hw2 ht, hcw⟩
  rw [hdec, heq]
  simp [List.append_assoc]

/-- A successful `COLUMBIA_SUFFIX_PAT` search on a text implies the
spec-level suffix decomposition of that text. -/
theorem revColParse_suffix {x : List Char} {t : List Char}
    (h : revColParse x.reverse = some t) : HasColumbiaSuffix x := by
  simp only [revColParse] at h
  split at h
  case isFalse => cases h
  case isTrue hcond =>
    split at h
    case h_1 rest heq =>
      -- x.reverse = w2r ++ r1, r1 = cw_r ++ rest8, rest8 = w1r ++ '-' :: rest
      have hx : x.reverse =
          (x.reverse.takeWhile isWs) ++
            ((x.reverse.dropWhile isWs).take 8 ++
              (((x.reverse.dropWhile isWs).drop 8).takeWhile isWs ++
                '-' :: rest)) := by
        conv_lhs => rw [← List.takeWhile_append_dropWhile (p := isWs) (l := x.reverse)]
        congr 1
        conv_lhs => rw [← List.take_append_drop 8 (x.reverse.dropWhile isWs)]
        congr 1
        conv_lhs => rw [← List.takeWhile_append_dropWhile (p := isWs)
          (l := (x.reverse.dropWhile isWs).drop 8)]
        rw [heq]
      have hx2 : x = rest.reverse ++ '-' ::
          ((((x.reverse.dropWhile isWs).drop 8).takeWhile isWs).reverse ++
            ((x.reverse.dropWhile isWs).take 8).reverse ++
            (x.reverse.takeWhile isWs).reverse) := by
        conv_lhs => rw [← List.reverse_reverse x, hx]
        simp [List.reverse_append]
      refine ⟨rest.reverse, _, _, _, hx2, allWs_reverse (allWs_takeWhile _),
        allWs_reverse (allWs_takeWhile _), ?_⟩
      have hmap : List.map lowerChar ((x.reverse.dropWhile isWs).take 8) =
          chars "aibmuloc" := hcond
      show List.map lowerChar ((x.reverse.dropWhile isWs).take 8).reverse =
        chars "columbia"
      rw [List.map_reverse, hmap]
      decide
    case h_2 => cases h

/-- A non-rejected input to `normalize_student` must carry the Columbia
suffix. -/
theorem normalize_student_suffix {s : List Char} (h : normalize_student s ≠ []) :
    HasColumbiaSuffix s := by
  by_cases h1 : squashWs s = []
  · exact absurd (by simp [normalize_student, h1]) h
  by_cases h2 : pyStrip (lowerStr (squashWs s)) = chars "student" ∨
      pyStrip (lowerStr (squashWs s)) = chars "n/a" ∨
      pyStrip (lowerStr (squashWs s)) = chars "na"
  · exfalso
    apply h
    simp only [normalize_student]
    rw [if_neg h1, if_pos h2]
  by_cases h3 : is_partner_marker (squashWs s) = true
  · exfalso
    apply h
    simp only [normalize_student]
    rw [if_neg h1, if_neg h2, if_pos h3]
  cases hrev : revColParse (squashWs s).reverse with
  | none =>
    exfalso
    apply h
    simp only [normalize_student]
    rw [if_neg h1, if_neg h2, if_neg h3, hrev]
  | some t =>
    exact suffix_of_pyStrip (suffix_of_collapseGo (pyStrip s) false
      (revColParse_suffix hrev))

theorem normalize_student_pipeline {s t : List Char}
    (h1 : squashWs s ≠ [])
    (h2 : pyStrip (lowerStr (squashWs s)) ≠ chars "student")
    (h3 : pyStrip (lowerStr (squashWs s)) ≠ chars "n/a")
    (h4 : pyStrip (lowerStr (squashWs s)) ≠ chars "na")
    (h5 : is_partner_marker (squashWs s) = false)
    (hrev : revColParse (squashWs s).reverse = some t) :
    normalize_student s =
      (if lowerStr (pyStrip t.reverse) = chars "rory" then chars "Rory-lynn Bradshaw"
       else if lowerStr (pyStrip t.reverse) = chars "jadyn" ∨
           lowerStr (pyStrip t.reverse) = chars "jadyn langley" then []
       else pyStrip t.reverse) := by
  simp only [normalize_student]
  rw [if_neg h1, if_neg (by tauto), if_neg (by simp [h5]), hrev]
  dsimp only
  have hcont : (EXCLUDE_STUDENTS.contains (lowerStr (pyStrip t.reverse)) = true) ↔
      (lowerStr (pyStrip t.reverse) = chars "jadyn" ∨
        lowerStr (pyStrip t.reverse) = chars "jadyn langley") := by
    simp [EXCLUDE_STUDENTS]
  by_cases halias : lowerStr (pyStrip t.reverse) = chars "rory"
  · rw [if_pos halias]
    have hfind : (STUDENT_ALIASES.find?
        (fun p => p.1 == lowerStr (pyStrip t.reverse))) =
          some (chars "rory", chars "Rory-lynn Bradshaw") := by
      simp [STUDENT_ALIASES, List.find?, halias]
    rw [hfind]
    dsimp only
    rw [if_neg (by decide)]
  · rw [if_neg halias]
    have hb : (chars "rory" == lowerStr (pyStrip t.reverse)) = false := by
      rw [beq_eq_false_iff_ne]
      exact fun h => halias h.symm
    have hfind : (STUDENT_ALIASES.find?
        (fun p => p.1 == lowerStr (pyStrip t.reverse))) = none := by
      simp [STUDENT_ALIASES, List.find?, hb]
    rw [hfind]
    dsimp only
    by_cases hexc : lowerStr (pyStrip t.reverse) = chars "jadyn" ∨
        lowerStr (pyStrip t.reverse) = chars "jadyn langley"
    · rw [if_pos hexc, if_pos (hcont.mpr hexc)]
    · rw [if_neg hexc, if_neg (fun hcc => hexc (hcont.mp hcc))]

/-- C2 fails as stated: 'jadyn - Columbia' carries the suffix and survives
the placeholder and partner filters, yet `normalize_student` returns the
empty string (the exclude list applies after stripping), not 'jadyn'. -/
theorem c2_counterexample :
    normalize_student (chars "jadyn - Columbia") = [] ∧
    is_partner_marker (chars "jadyn - Columbia") = false ∧
    chars "jadyn" ≠ [] := ⟨by decide, by decide, by decide⟩

/-- C2 (amended): every input `normalize_student` does not reject carries
a trailing '- Columbia' suffix (case-insensitive, arbitrary surrounding
whitespace) — equivalently, any input lacking the suffix is rejected; and
whenever the whitespace-collapsed input carries the suffix and survives
the earlier filters, the result is the collapsed suffix-stripped name
after case-insensitive alias substitution, with the empty string returned
instead when the name is on the exclude list.  'Jane Doe' is rejected
while 'Jane Doe - Columbia' yields 'Jane Doe'. -/
theorem c2_columbia_suffix :
    (∀ s : List Char, normalize_student s ≠ [] → HasColumbiaSuffix s) ∧
    (∀ s t : List Char,
        squashWs s ≠ [] →
        pyStrip (lowerStr (squashWs s)) ≠ chars "student" →
        pyStrip (lowerStr (squashWs s)) ≠ chars "n/a" →
        pyStrip (lowerStr (squashWs s)) ≠ chars "na" →
        is_partner_marker (squashWs s) = false →
        revColParse (squashWs s).reverse = some t →
        normalize_student s =
          (if lowerStr (pyStrip t.reverse) = chars "rory" then
            chars "Rory-lynn Bradshaw"
           else if lowerStr (pyStrip t.reverse) = chars "jadyn" ∨
               lowerStr (pyStrip t.reverse) = chars "jadyn langley" then []
           else pyStrip t.reverse)) ∧
    normalize_student (chars "Jane Doe") = [] ∧
    normalize_student (chars "Jane Doe - Columbia") = chars "Jane Doe" := by
  refine ⟨?_, ?_, by decide, by decide⟩
  · intro s h
    exact normalize_student_suffix h
  · intro s t h1 h2 h3 h4 h5 hrev
    exact normalize_student_pipeline h1 h2 h3 h4 h5 hrev

theorem c2_columbia_suffix_witness :
    HasColumbiaSuffix (chars "Jane  Doe - Columbia") ∧
    normalize_student (chars "Jane  Doe - Columbia") = chars "Jane Doe" := by
  constructor
  · exact c2_columbia_suffix.1 (chars "Jane  Doe - Columbia") (by decide)
  · have h := c2_columbia_suffix.2.1 (chars "Jane  Doe - Columbia")
      (chars "eoD enaJ") (by decide) (by decide) (by decide) (by decide)
      (by decide) (by decide)
    rw [h]
    decide

end BCEHS
